import Mathlib

/-!
# Verification of `NucContactProbability.plot_contact_probability_seq_sep`

A shallow embedding of the contact-probability pipeline of
`NucContactProbability.py` (a Python 2 program).  The embedding mirrors the
source line by line:

* an NCC record is the 15 whitespace-separated fields of one input line;
  the eight fragment/read coordinates are parsed with `int(...)` (lines
  106-113 of the source) and are modelled as `Int`; the strand fields are
  **never** parsed and stay strings, exactly as in the source;
* Python 2 orders values of different built-in types by type name, with
  numeric types below every other type, so the source's `strand_a > 0`
  (a `str` against an `int`) is always `True`; `py2StrGtInt` models this;
* Python dicts are modelled as `Dict`: a lookup function plus a key list
  (iteration order is modelled as insertion order);
* `np.array(..., np.int32)` wraps coordinates to 32-bit two's complement;
  `toInt32`/`sep32` model the wrap, the subtraction and numpy's wrapping
  absolute value;
* float arithmetic is idealised as exact rational (`ℚ`) arithmetic, with
  the `x / 0 = 0` convention of `ℚ` standing in for the float NaN/Inf
  results that the claims below never exercise (where a claim depends on a
  division by zero the corresponding nonzero-denominator hypothesis is
  carried explicitly);
* `np.histogram(data, bins, weights, normed=True)` for the uniform-width
  bins the source builds divides each bin's weighted count by
  `sum(count_i * width_i)`; bin `i` is `[e_i, e_{i+1})`, the last bin is
  closed, samples outside `[e_0, e_k]` are discarded;
* the two crashes reachable in the aggregation (`.max()` of an empty array
  at line 165, `None.std(...)` at line 201) are modelled as `Except`
  errors;
* the log-spaced display transform (`np.log10`) and all matplotlib calls
  are presentation-only and are not modelled; every statement below is
  about the pre-log series handed to the renderer.  The bin edge list
  (`np.linspace(bin_size, 10 ** 7.7, num_bins)`, irrational right end) is
  taken as a parameter `edges : List ℚ`.
-/

namespace NucProb

/-- A Python dict: the lookup function together with the key list that
drives `for k in d` loops.  Iteration order is modelled as insertion
order. -/
structure Dict (α : Type) where
  keys : List String
  val : String → Option α

def Dict.empty {α : Type} : Dict α := ⟨[], fun _ => none⟩

def Dict.get {α : Type} (d : Dict α) (k : String) : Option α := d.val k

/-- `d[k] = v`: a new key is appended to the iteration order, an existing
key keeps its place. -/
def Dict.set {α : Type} (d : Dict α) (k : String) (v : α) : Dict α :=
  ⟨if (d.val k).isSome then d.keys else d.keys ++ [k],
   fun x => if x = k then some v else d.val x⟩

/-- One line of an NCC file (line 101 of the source).  The eight
coordinate fields are `int(...)`-parsed by the source; the strand fields,
the ambiguity group, the pair id and the swap flag are left as the raw
strings, exactly as in the source. -/
structure NccRecord where
  chr_a : String
  f_start_a : Int
  f_end_a : Int
  start_a : Int
  end_a : Int
  strand_a : String
  chr_b : String
  f_start_b : Int
  f_end_b : Int
  start_b : Int
  end_b : Int
  strand_b : String
  ambig_group : String
  pair_id : String
  swap_pair : String
deriving DecidableEq

/-- An input file: its path (the dict key used by the source) and its
parsed lines. -/
structure NccFile where
  path : String
  lines : List NccRecord
deriving DecidableEq

/-- CPython 2 compares values of different built-in types by type name,
with numeric types ordered below every non-numeric type, so any `str` is
greater than any `int`.  The source compares the unparsed strand field (a
`str`) against the int `0` (lines 128 and 133), which therefore always
evaluates to `True`. -/
def py2StrGtInt (s : String) (n : Int) : Bool := true

/-- Lines 128-136: `p_a = f_end_a if strand_a > 0 else f_start_a`, with
the Python 2 string/int comparison. -/
def anchorPos (strand : String) (fstart fend : Int) : Int :=
  if py2StrGtInt strand 0 then fend else fstart

/-- Wrap an integer to 32-bit two's complement, as `np.int32` does. -/
def toInt32 (n : Int) : Int := (n + 2 ^ 31) % 2 ^ 32 - 2 ^ 31

/-- Lines 142-144: the contact array is built with dtype `np.int32` and
`seps = abs(a - b)` is computed elementwise in int32, so the subtraction
and the absolute value both wrap (numpy's `abs` of `-2^31` is `-2^31`). -/
def sep32 (a b : Int) : Int := toInt32 ((toInt32 (toInt32 a - toInt32 b)).natAbs : Int)

/-- The anchor pair appended to `contacts[chr_a]` at line 138. -/
def anchorsOf (r : NccRecord) : Int × Int :=
  (anchorPos r.strand_a r.f_start_a r.f_end_a, anchorPos r.strand_b r.f_start_b r.f_end_b)

/-- `min(f_start_a, f_start_b)` of lines 117/119. -/
def cisLo (r : NccRecord) : Int := min r.f_start_a r.f_start_b

/-- `max(f_end_a, f_end_b)` of lines 117/119. -/
def cisHi (r : NccRecord) : Int := max r.f_end_a r.f_end_b

/-- Lines 115-119: update `chromo_limits` for one (cis) record. -/
def stepLimits (d : Dict (Int × Int)) (r : NccRecord) : Dict (Int × Int) :=
  if r.chr_a = r.chr_b then
    match d.get r.chr_a with
    | some (s, e) => d.set r.chr_a (min s (cisLo r), max e (cisHi r))
    | none => d.set r.chr_a (cisLo r, cisHi r)
  else d

/-- Lines 121-138: append the anchor pair of one (cis) record to
`contacts[chr_a]`. -/
def stepContacts (d : Dict (List (Int × Int))) (r : NccRecord) : Dict (List (Int × Int)) :=
  if r.chr_a = r.chr_b then
    d.set r.chr_a (((d.get r.chr_a).getD []) ++ [anchorsOf r])
  else d

/-- The per-group mutable state of the source: `chromo_limits`,
`contacts`, the pooled lists `seq_seps_all` / `weights_all` and the
per-file dicts `seq_seps` / `weights` (lines 84-89).  All of them are
initialised once per *group*, not per file. -/
structure GroupState where
  chromo_limits : Dict (Int × Int)
  contacts : Dict (List (Int × Int))
  seq_seps_all : List Int
  weights_all : List ℚ
  seq_seps : Dict (List Int)
  weights : Dict (List ℚ)

def initState : GroupState :=
  ⟨Dict.empty, Dict.empty, [], [], Dict.empty, Dict.empty⟩

/-- Lines 100-138: process one input line (trans records are skipped at
line 103-104). -/
def processLine (st : GroupState) (r : NccRecord) : GroupState :=
  { st with
    chromo_limits := stepLimits st.chromo_limits r,
    contacts := stepContacts st.contacts r }

/-- Lines 142-147: int32 separations of one chromosome's contact list,
with the zero separations removed (`seps.nonzero()`). -/
def chromoPairs (cl : List (Int × Int)) : List Int :=
  (cl.map (fun pr => sep32 pr.1 pr.2)).filter (fun s => s ≠ 0)

/-- Line 150: `size = float(p_end - p_start + 1)`. -/
def usableLen (lim : Int × Int) : ℚ := ((lim.2 - lim.1 : Int) : ℚ) + 1

/-- Line 152: `prob = size / (size - seps)`, elementwise over the
(already filtered) separations. -/
def chromoWeights (lim : Int × Int) (seps : List Int) : List ℚ :=
  seps.map (fun s : Int => usableLen lim / (usableLen lim - (s : ℚ)))

/-- Lines 140-160: the body of `for chromo in contacts`, reading
`contacts` and `chromo_limits` from the state `st` frozen at loop entry
and accumulating into `acc`. -/
def chromoStep (ms : Bool) (path : String) (st : GroupState) (acc : GroupState)
    (chromo : String) : GroupState :=
  let cl := (st.contacts.get chromo).getD []
  let lim := (st.chromo_limits.get chromo).getD (0, 0)
  let seps := chromoPairs cl
  let prob := chromoWeights lim seps
  let acc1 :=
    if ms then acc
    else
      { acc with
        seq_seps := acc.seq_seps.set path (((acc.seq_seps.get path).getD []) ++ seps),
        weights := acc.weights.set path (((acc.weights.get path).getD []) ++ prob) }
  { acc1 with
    seq_seps_all := acc1.seq_seps_all ++ seps,
    weights_all := acc1.weights_all ++ prob }

/-- Lines 140-160: the whole `for chromo in contacts` loop, run once per
input file, over the contacts accumulated so far in the group. -/
def afterFileChromoLoop (ms : Bool) (path : String) (st : GroupState) : GroupState :=
  st.contacts.keys.foldl (chromoStep ms path st) st

/-- Lines 93-160: process one input file of a group — reset the per-file
dict entries (lines 95-96), stream the lines (lines 100-138), then run
the per-chromosome separation/weight loop (lines 140-160). -/
def processFile (ms : Bool) (st : GroupState) (f : NccFile) : GroupState :=
  let st1 := { st with
    seq_seps := st.seq_seps.set f.path [],
    weights := st.weights.set f.path [] }
  let st2 := f.lines.foldl processLine st1
  afterFileChromoLoop ms f.path st2

/-- Lines 84-160: the whole per-group accumulation, over the files of one
group, with the group-wide state initialised once (line 84-89). -/
def processGroup (ms : Bool) (files : List NccFile) : GroupState :=
  files.foldl (processFile ms) initState

/-! ## The weighted histogram (`np.histogram(..., weights, normed=True)`) -/

/-- The bin a sample falls into, given the edge list: bin `i` is
`[e_i, e_{i+1})`, the final bin is closed on the right, samples outside
`[e_0, e_k]` are discarded.  This is `np.histogram`'s binning. -/
def findBin : List ℚ → ℚ → Option Nat
  | e0 :: e1 :: rest, v =>
    if v < e0 then none
    else
      match rest with
      | [] => if v ≤ e1 then some 0 else none
      | _ :: _ => if v < e1 then some 0 else (findBin (e1 :: rest) v).map (· + 1)
  | _, _ => none

/-- The weighted count of bin `i`. -/
def binCount (edges : List ℚ) (data : List (ℚ × ℚ)) (i : Nat) : ℚ :=
  ((data.filter (fun p => findBin edges p.1 = some i)).map (fun p => p.2)).sum

/-- All weighted bin counts (`n` in numpy's histogram). -/
def binCounts (edges : List ℚ) (data : List (ℚ × ℚ)) : List ℚ :=
  (List.range (edges.length - 1)).map (binCount edges data)

/-- Bin widths (`db = diff(bins)`). -/
def binWidths (edges : List ℚ) : List ℚ :=
  (edges.zip edges.tail).map (fun p => p.2 - p.1)

/-- `(n * db).sum()`: the total mass `normed=True` divides by. -/
def histTotal (edges : List ℚ) (data : List (ℚ × ℚ)) : ℚ :=
  (((binCounts edges data).zip (binWidths edges)).map (fun p => p.1 * p.2)).sum

/-- `np.histogram(..., normed=True)` (line 182/191): each weighted count
divided by `(n * db).sum()`; for the source's uniform-width bins this is
exactly density normalisation. -/
def histNormed (edges : List ℚ) (data : List (ℚ × ℚ)) : List ℚ :=
  (binCounts edges data).map (fun c => c / histTotal edges data)

/-- `sum(hist_i * width_i)` over all bins: the discrete integral of the
normalised histogram. -/
def histIntegral (edges : List ℚ) (data : List (ℚ × ℚ)) : ℚ :=
  (((histNormed edges data).zip (binWidths edges)).map (fun p => p.1 * p.2)).sum

/-- The same integral after the zero bins are dropped (lines 192-195:
`idx = hist.nonzero(); hist = hist[idx]`). -/
def keptIntegral (edges : List ℚ) (data : List (ℚ × ℚ)) : ℚ :=
  ((((histNormed edges data).zip (binWidths edges)).filter (fun p => p.1 ≠ 0)).map
    (fun p => p.1 * p.2)).sum

/-! ## Dispersion across the per-file histograms (lines 178-203) -/

/-- `np.std(..., ddof=1)` squared: the Bessel-corrected sample variance.
The source takes the square root of this; stating results about the
variance avoids an irrational intermediate while pinning the same
information (`std = 0` iff the variance is `0`). -/
def sampleVar (xs : List ℚ) : ℚ :=
  ((xs.map (fun x => (x - xs.sum / (xs.length : ℚ)) ^ 2)).sum) / ((xs.length : ℚ) - 1)

/-- The (separation, weight) observations of one per-file dict entry,
cast to rationals as the float histogram call does. -/
def perFileData (st : GroupState) (p : String) : List (ℚ × ℚ) :=
  (((st.seq_seps.get p).getD []).map (fun s : Int => (s : ℚ))).zip ((st.weights.get p).getD [])

/-- Lines 178-189: one row of `comb_y_data` per key of `seq_seps`, each
the full normalised per-file histogram (writing `hist[idx]` back at the
nonzero positions of a zero row reproduces the full histogram); rows of
files never iterated stay zero-filled. -/
def perFileRows (edges : List ℚ) (st : GroupState) (nFiles : Nat) : List (List ℚ) :=
  let rows := st.seq_seps.keys.map (fun p => histNormed edges (perFileData st p))
  rows ++ List.replicate (nFiles - rows.length) (List.replicate (edges.length - 1) 0)

/-- Line 201 (pre-`sqrt`, all bins): the per-bin sample variance across
the per-file histograms. -/
def binVariances (edges : List ℚ) (st : GroupState) (nFiles : Nat) : List ℚ :=
  (List.range (edges.length - 1)).map
    (fun j => sampleVar ((perFileRows edges st nFiles).map (fun r => r.getD j 0)))

/-- The pooled (separation, weight) data of the group (lines 159-163). -/
def combinedData (st : GroupState) : List (ℚ × ℚ) :=
  (st.seq_seps_all.map (fun s : Int => (s : ℚ))).zip st.weights_all

/-- Line 191: the combined normalised histogram of the group. -/
def combinedHist (edges : List ℚ) (st : GroupState) : List ℚ :=
  histNormed edges (combinedData st)

/-- The two ways one group's aggregation aborts the run:
`seq_seps_all.max()` on an empty array (line 165, a numpy `ValueError`)
and `None.std(...)` when `comb_y_data` was never created (line 201, an
`AttributeError`). -/
inductive PyError where
  | valueErrorEmptyMax : PyError
  | attrErrorNoneStd : PyError
deriving DecidableEq

/-- The numeric output of one group: the combined histogram (full bin
list, pre-log) and, when dispersion is computed, the per-bin sample
variance across the per-file histograms (the square of the `y_err` the
source feeds into the error band). -/
structure GroupResult where
  hist : List ℚ
  varOpt : Option (List ℚ)
deriving DecidableEq

/-- Lines 163-203 for one group: fail like line 165 when the group has no
usable separation; otherwise build the combined histogram; in
single-group mode (`not multi_set`) the dispersion block requires
`comb_y_data`, which exists only when the group has more than one file —
with exactly one file line 201 dereferences `None` and the run dies. -/
def groupOutcome (ms : Bool) (edges : List ℚ) (files : List NccFile) :
    Except PyError GroupResult :=
  let st := processGroup ms files
  if st.seq_seps_all.isEmpty then .error .valueErrorEmptyMax
  else if ms then .ok ⟨combinedHist edges st, none⟩
  else if files.length > 1 then
    .ok ⟨combinedHist edges st, some (binVariances edges st files.length)⟩
  else .error .attrErrorNoneStd

/-- Lines 83-209 over all groups: process the groups in order, popping
the head of the caller's label list once per successfully processed group
(lines 208-209: `if labels: label = labels.pop(0)`); any group error
aborts the whole run, as an uncaught Python exception does. -/
def runGroupsAux (ms : Bool) (edges : List ℚ) :
    List (List NccFile) → List String → Except PyError (List GroupResult × List String)
  | [], labels => .ok ([], labels)
  | g :: gs, labels =>
    match groupOutcome ms edges g with
    | .error e => .error e
    | .ok res =>
      match runGroupsAux ms edges gs (if labels.isEmpty then labels else labels.tail) with
      | .error e => .error e
      | .ok p => .ok (res :: p.1, p.2)

/-- The whole plot routine on parsed inputs: `multi_set` is
`len(ncc_paths) > 1` (line 81); the returned label list is the final
contents of the caller's (mutated) `labels` argument. -/
def runGroups (edges : List ℚ) (groups : List (List NccFile)) (labels : List String) :
    Except PyError (List GroupResult × List String) :=
  runGroupsAux (decide (1 < groups.length)) edges groups labels

/-- The spec's §4.2 file-scoped variant, for comparison with the code:
each input file is processed with its *own* fresh extent map and contact
store (equivalently, as a one-file group), and the per-file weight lists
are concatenated.  Under the spec's claim this should coincide with what
the group loop produces. -/
def fileScopedWeightsSpec (files : List NccFile) : List ℚ :=
  files.flatMap (fun f => (processGroup false [f]).weights_all)

/-! ## Derived quantities used by the statements and proofs -/

/-- `l` repeated `m` times, in order. -/
def repList {α : Type} : Nat → List α → List α
  | 0, _ => []
  | m + 1, l => l ++ repList m l

/-- The elements of a list paired with their indices, starting at `i`. -/
def withIdx {α : Type} (i : Nat) : List α → List (Nat × α)
  | [] => []
  | a :: l => (i, a) :: withIdx (i + 1) l

/-- The extent map a record stream builds from scratch. -/
def limitsOf (L : List NccRecord) : Dict (Int × Int) := L.foldl stepLimits Dict.empty

/-- The contact map a record stream builds from scratch. -/
def contactsOf (L : List NccRecord) : Dict (List (Int × Int)) := L.foldl stepContacts Dict.empty

/-- The anchor pairs a record stream contributes to chromosome `chr`. -/
def cisPairs (L : List NccRecord) (chr : String) : List (Int × Int) :=
  (L.filter (fun r => r.chr_a = r.chr_b ∧ r.chr_a = chr)).map anchorsOf

/-- One chromosome's contact list after one pass over `L`. -/
def chromoBase (L : List NccRecord) (chr : String) : List (Int × Int) :=
  ((contactsOf L).get chr).getD []

/-- The separations appended for one file iteration when the group
contacts hold `m` accumulated copies of the stream `L`. -/
def perSeps (L : List NccRecord) (m : Nat) : List Int :=
  (contactsOf L).keys.flatMap (fun chr => chromoPairs (repList m (chromoBase L chr)))

/-- The weights appended for one file iteration when the group contacts
hold `m` accumulated copies of the stream `L`. -/
def perW (L : List NccRecord) (m : Nat) : List ℚ :=
  (contactsOf L).keys.flatMap (fun chr =>
    chromoWeights (((limitsOf L).get chr).getD (0, 0)) (chromoPairs (repList m (chromoBase L chr))))

/-- The separations one chromosome contributes in the loop of lines
140-160, read off the frozen state `st`. -/
def pieceS (st : GroupState) (chr : String) : List Int :=
  chromoPairs ((st.contacts.get chr).getD [])

/-- The weights one chromosome contributes in the loop of lines 140-160,
read off the frozen state `st`. -/
def pieceW (st : GroupState) (chr : String) : List ℚ :=
  chromoWeights ((st.chromo_limits.get chr).getD (0, 0)) (pieceS st chr)

/-- The (separation, weight) observations a single pass over `L`
produces: the histogram input of the first file of a group whose files
all hold the stream `L`. -/
def singleData (L : List NccRecord) : List (ℚ × ℚ) :=
  ((perSeps L 1).map (fun s : Int => (s : ℚ))).zip (perW L 1)

/-- The four fragment coordinates of a record are non-negative and
exactly representable in `np.int32` (every genomic coordinate is; the
spec's input contract, §6, makes all positional fields non-negative
integers). -/
def coordOK (r : NccRecord) : Prop :=
  0 ≤ r.f_start_a ∧ r.f_start_a < 2 ^ 31 ∧ 0 ≤ r.f_end_a ∧ r.f_end_a < 2 ^ 31 ∧
  0 ≤ r.f_start_b ∧ r.f_start_b < 2 ^ 31 ∧ 0 ≤ r.f_end_b ∧ r.f_end_b < 2 ^ 31

instance (r : NccRecord) : Decidable (coordOK r) := by unfold coordOK; infer_instance

/-- An anchor pair whose coordinates are non-negative int32 values. -/
def pairOK (pr : Int × Int) : Prop :=
  0 ≤ pr.1 ∧ pr.1 < 2 ^ 31 ∧ 0 ≤ pr.2 ∧ pr.2 < 2 ^ 31

/-- The record's extent entry covers the interval `[lo, hi]` recorded in
the dict for its chromosome. -/
def containsRec (d : Dict (Int × Int)) (r : NccRecord) : Prop :=
  ∃ s e, d.get r.chr_a = some (s, e) ∧ s ≤ cisLo r ∧ cisHi r ≤ e

/-- The state right after the per-file dict entries are reset at lines
95-96 (`seq_seps[ncc_path] = []; weights[ncc_path] = []`). -/
def resetState (st : GroupState) (f : NccFile) : GroupState :=
  { st with
    seq_seps := st.seq_seps.set f.path [],
    weights := st.weights.set f.path [] }

/-- The state in the middle of one file's processing: the per-file dict
entries freshly reset (lines 95-96) and the whole file streamed through
the line loop (lines 100-138), before the per-chromosome weight loop. -/
def midState (st : GroupState) (f : NccFile) : GroupState :=
  { st with
    chromo_limits := f.lines.foldl stepLimits st.chromo_limits,
    contacts := f.lines.foldl stepContacts st.contacts,
    seq_seps := st.seq_seps.set f.path [],
    weights := st.weights.set f.path [] }

/-- A sample cis record on chromosome `chr` with the given fragment
coordinates, a positive strand on side a and a negative strand on side b
(read coordinates and pass-through fields are irrelevant to the core and
set to placeholders). -/
def mkRec (chr : String) (fsa fea fsb feb : Int) : NccRecord :=
  ⟨chr, fsa, fea, 0, 0, "+", chr, fsb, feb, 0, 0, "-", "0", "1", "-"⟩

/-- The state invariant of a single-group run over files with identical
contents `L` and pairwise distinct paths `done` (one conjunct per piece
of the Python state): the extent map has stabilised at `limitsOf L`, the
contact map holds `done.length` accumulated copies of each chromosome's
base list, and the file processed in (0-based) iteration `j` pooled the
separations and weights of `j + 1` copies of the stream. -/
def c7Inv (L : List NccRecord) (done : List String) (st : GroupState) : Prop :=
  st.chromo_limits = limitsOf L ∧
  st.contacts.keys = (contactsOf L).keys ∧
  (∀ chr, st.contacts.get chr = ((contactsOf L).get chr).map (repList done.length)) ∧
  st.seq_seps.keys = done ∧
  (∀ pr ∈ withIdx 0 done,
    st.seq_seps.get pr.2 = some (perSeps L (pr.1 + 1)) ∧
    st.weights.get pr.2 = some (perW L (pr.1 + 1))) ∧
  (∀ q, q ∉ done → st.seq_seps.get q = none ∧ st.weights.get q = none)

/-! ## Dict lemmas -/

theorem Dict.ext {α : Type} {d d' : Dict α} (hk : d.keys = d'.keys)
    (hv : ∀ x, d.val x = d'.val x) : d = d' := by
  cases d; cases d'
  simp only [Dict.mk.injEq]
  exact ⟨hk, funext hv⟩

@[simp] theorem Dict.get_set_self {α : Type} (d : Dict α) (k : String) (v : α) :
    (d.set k v).get k = some v := by
  simp [Dict.get, Dict.set]

theorem Dict.get_set_ne {α : Type} (d : Dict α) {k x : String} (v : α) (h : x ≠ k) :
    (d.set k v).get x = d.get x := by
  simp [Dict.get, Dict.set, h]

theorem Dict.keys_set_of_isSome {α : Type} (d : Dict α) (k : String) (v : α)
    (h : (d.get k).isSome) : (d.set k v).keys = d.keys := by
  have h' : (d.val k).isSome := h
  simp only [Dict.set, h', if_true]

theorem Dict.set_set {α : Type} (d : Dict α) (k : String) (v v' : α) :
    (d.set k v).set k v' = d.set k v' := by
  refine Dict.ext ?_ ?_
  · simp [Dict.set]
  · intro x
    simp only [Dict.set]
    by_cases hx : x = k <;> simp [hx]

theorem Dict.set_self {α : Type} (d : Dict α) {k : String} {v : α}
    (h : d.get k = some v) : d.set k v = d := by
  have h' : d.val k = some v := h
  refine Dict.ext ?_ ?_
  · simp only [Dict.set, Dict.get, h', Option.isSome_some, if_true]
  · intro x
    simp only [Dict.set]
    by_cases hx : x = k
    · simp [hx, h'.symm]
    · simp [hx]

/-! ## List utilities -/

theorem repList_one {α : Type} (l : List α) : repList 1 l = l := by
  simp [repList]

theorem repList_succ_right {α : Type} (m : Nat) (l : List α) :
    repList (m + 1) l = repList m l ++ l := by
  induction m with
  | zero => simp [repList]
  | succ m ih =>
    show l ++ repList (m + 1) l = (l ++ repList m l) ++ l
    rw [ih, List.append_assoc]

theorem map_repList {α β : Type} (f : α → β) (m : Nat) (l : List α) :
    (repList m l).map f = repList m (l.map f) := by
  induction m with
  | zero => simp [repList]
  | succ m ih => simp [repList, ih]

theorem filter_repList {α : Type} (p : α → Bool) (m : Nat) (l : List α) :
    (repList m l).filter p = repList m (l.filter p) := by
  induction m with
  | zero => simp [repList]
  | succ m ih => simp [repList, ih]

theorem length_repList {α : Type} (m : Nat) (l : List α) :
    (repList m l).length = m * l.length := by
  induction m with
  | zero => simp [repList]
  | succ m ih => simp [repList, ih, Nat.succ_mul, Nat.add_comm]

theorem zip_repList {α β : Type} (m : Nat) (a : List α) (b : List β)
    (h : a.length = b.length) : (repList m a).zip (repList m b) = repList m (a.zip b) := by
  induction m with
  | zero => simp [repList]
  | succ m ih =>
    simp only [repList]
    rw [List.zip_append h, ih]

theorem withIdx_snoc {α : Type} (i : Nat) (l : List α) (a : α) :
    withIdx i (l ++ [a]) = withIdx i l ++ [(i + l.length, a)] := by
  induction l generalizing i with
  | nil => simp [withIdx]
  | cons b l ih =>
    have harith : i + 1 + l.length = i + (l.length + 1) := by omega
    show (i, b) :: withIdx (i + 1) (l ++ [a]) =
      ((i, b) :: withIdx (i + 1) l) ++ [(i + (b :: l).length, a)]
    rw [ih, List.cons_append, List.length_cons, harith]

theorem exists_withIdx_of_mem {α : Type} {l : List α} {a : α} (h : a ∈ l) (i : Nat) :
    ∃ j, (j, a) ∈ withIdx i l := by
  induction l generalizing i with
  | nil => cases h
  | cons b l ih =>
    rcases List.mem_cons.mp h with h | h
    · exact ⟨i, by simp [withIdx, h]⟩
    · obtain ⟨j, hj⟩ := ih h (i + 1)
      exact ⟨j, by simp [withIdx, hj]⟩

theorem sum_map_div (l : List ℚ) (t : ℚ) :
    (l.map (fun x => x / t)).sum = l.sum / t := by
  induction l with
  | nil => simp
  | cons a l ih => simp [ih, div_add_div_same]

theorem zip_map_left_mul (c w : List ℚ) (t : ℚ) :
    ((c.map (fun x => t * x)).zip w).map (fun p => p.1 * p.2) =
      ((c.zip w).map (fun p => p.1 * p.2)).map (fun x => t * x) := by
  induction c generalizing w with
  | nil => simp
  | cons a c ih =>
    cases w with
    | nil => simp
    | cons b w => simp [ih, mul_assoc]

theorem zip_map_left_div (c w : List ℚ) (t : ℚ) :
    ((c.map (fun x => x / t)).zip w).map (fun p => p.1 * p.2) =
      ((c.zip w).map (fun p => p.1 * p.2)).map (fun x => x / t) := by
  induction c generalizing w with
  | nil => simp
  | cons a c ih =>
    cases w with
    | nil => simp
    | cons b w => simp [ih, div_mul_eq_mul_div]

theorem sum_map_mul_left_q (l : List ℚ) (f : ℚ → ℚ) (t : ℚ) :
    (l.map (fun x => t * f x)).sum = t * (l.map f).sum := by
  induction l with
  | nil => simp
  | cons a l ih => simp [ih, mul_add]

theorem sum_filter_fst_ne_zero (l : List (ℚ × ℚ)) :
    ((l.filter (fun p => p.1 ≠ 0)).map (fun p => p.1 * p.2)).sum =
      (l.map (fun p => p.1 * p.2)).sum := by
  induction l with
  | nil => simp
  | cons a l ih =>
    rw [List.filter_cons]
    by_cases h : a.1 = 0
    · simp only [decide_not] at ih ⊢
      simp [h, ih]
    · simp only [decide_not] at ih ⊢
      simp [h, ih]

theorem mem_zip_map {α β : Type} (f : α → β) (l : List α) (p : α × β)
    (h : p ∈ l.zip (l.map f)) : p.2 = f p.1 := by
  induction l with
  | nil => cases h
  | cons a l ih =>
    rcases List.mem_cons.mp h with h | h
    · simp [h]
    · exact ih h

theorem sum_map_mul_const (l : List ℚ) (t : ℚ) :
    (l.map (fun x => t * x)).sum = t * l.sum := by
  induction l with
  | nil => simp
  | cons a l ih => simp [ih, mul_add]

/-! ## Histogram lemmas -/

theorem binCount_append (edges : List ℚ) (d1 d2 : List (ℚ × ℚ)) (i : Nat) :
    binCount edges (d1 ++ d2) i = binCount edges d1 i + binCount edges d2 i := by
  simp [binCount, List.filter_append]

theorem binCount_flatMap {α : Type} (edges : List ℚ) (ks : List α)
    (z : α → List (ℚ × ℚ)) (i : Nat) :
    binCount edges (ks.flatMap z) i = (ks.map (fun k => binCount edges (z k) i)).sum := by
  induction ks with
  | nil => simp [binCount]
  | cons k ks ih => simp [List.flatMap_cons, binCount_append, ih]

theorem binCount_repList (edges : List ℚ) (m : Nat) (d : List (ℚ × ℚ)) (i : Nat) :
    binCount edges (repList m d) i = (m : ℚ) * binCount edges d i := by
  induction m with
  | zero => simp [repList, binCount]
  | succ m ih =>
    simp only [repList, binCount_append, ih]
    push_cast
    ring

theorem binCount_flatMap_repList {α : Type} (edges : List ℚ) (ks : List α)
    (z : α → List (ℚ × ℚ)) (m : Nat) (i : Nat) :
    binCount edges (ks.flatMap (fun k => repList m (z k))) i =
      (m : ℚ) * binCount edges (ks.flatMap z) i := by
  rw [binCount_flatMap, binCount_flatMap]
  have : (ks.map (fun k => binCount edges (repList m (z k)) i)) =
      ks.map (fun k => (m : ℚ) * binCount edges (z k) i) := by
    apply List.map_congr_left
    intro k _
    exact binCount_repList edges m (z k) i
  rw [this]
  have h2 : ks.map (fun k => (m : ℚ) * binCount edges (z k) i) =
      (ks.map (fun k => binCount edges (z k) i)).map (fun x => (m : ℚ) * x) := by
    simp [List.map_map]
  rw [h2, sum_map_mul_const]

theorem binCounts_flatMap_repList {α : Type} (edges : List ℚ) (ks : List α)
    (z : α → List (ℚ × ℚ)) (m : Nat) :
    binCounts edges (ks.flatMap (fun k => repList m (z k))) =
      (binCounts edges (ks.flatMap z)).map (fun c => (m : ℚ) * c) := by
  simp only [binCounts, List.map_map]
  apply List.map_congr_left
  intro i _
  exact binCount_flatMap_repList edges ks z m i

theorem histTotal_flatMap_repList {α : Type} (edges : List ℚ) (ks : List α)
    (z : α → List (ℚ × ℚ)) (m : Nat) :
    histTotal edges (ks.flatMap (fun k => repList m (z k))) =
      (m : ℚ) * histTotal edges (ks.flatMap z) := by
  simp only [histTotal, binCounts_flatMap_repList, zip_map_left_mul, sum_map_mul_const]

theorem histNormed_flatMap_repList {α : Type} (edges : List ℚ) (ks : List α)
    (z : α → List (ℚ × ℚ)) (m : Nat) (hm : m ≠ 0) :
    histNormed edges (ks.flatMap (fun k => repList m (z k))) =
      histNormed edges (ks.flatMap z) := by
  have hm' : (m : ℚ) ≠ 0 := Nat.cast_ne_zero.mpr hm
  simp only [histNormed, binCounts_flatMap_repList, histTotal_flatMap_repList, List.map_map]
  apply List.map_congr_left
  intro c _
  simp only [Function.comp]
  exact mul_div_mul_left c (histTotal edges (ks.flatMap z)) hm'

theorem histIntegral_eq_one (edges : List ℚ) (data : List (ℚ × ℚ))
    (hT : histTotal edges data ≠ 0) : histIntegral edges data = 1 := by
  rw [histIntegral, histNormed, zip_map_left_div, sum_map_div]
  rw [show (((binCounts edges data).zip (binWidths edges)).map (fun p => p.1 * p.2)).sum
      = histTotal edges data from rfl]
  exact div_self hT

theorem keptIntegral_eq_histIntegral (edges : List ℚ) (data : List (ℚ × ℚ)) :
    keptIntegral edges data = histIntegral edges data := by
  rw [keptIntegral, histIntegral]
  exact sum_filter_fst_ne_zero _

/-! ## Projection and loop characterisation lemmas -/

theorem processLine_fold (L : List NccRecord) (st : GroupState) :
    L.foldl processLine st =
      { st with
        chromo_limits := L.foldl stepLimits st.chromo_limits,
        contacts := L.foldl stepContacts st.contacts } := by
  induction L generalizing st with
  | nil => simp
  | cons r L ih => simp [List.foldl_cons, ih, processLine]

theorem chromoLoop_true (st : GroupState) (path : String) (KS : List String) :
    ∀ acc : GroupState,
      KS.foldl (chromoStep true path st) acc =
        { acc with
          seq_seps_all := acc.seq_seps_all ++ KS.flatMap (pieceS st),
          weights_all := acc.weights_all ++ KS.flatMap (pieceW st) } := by
  induction KS with
  | nil => intro acc; simp
  | cons k KS ih =>
    intro acc
    rw [List.foldl_cons, ih]
    simp [chromoStep, pieceS, pieceW, List.append_assoc]

theorem chromoLoop_false (st : GroupState) (path : String) (KS : List String) :
    ∀ (acc : GroupState) (l0 : List Int) (w0 : List ℚ),
      acc.seq_seps.get path = some l0 → acc.weights.get path = some w0 →
      KS.foldl (chromoStep false path st) acc =
        { acc with
          seq_seps_all := acc.seq_seps_all ++ KS.flatMap (pieceS st),
          weights_all := acc.weights_all ++ KS.flatMap (pieceW st),
          seq_seps := acc.seq_seps.set path (l0 ++ KS.flatMap (pieceS st)),
          weights := acc.weights.set path (w0 ++ KS.flatMap (pieceW st)) } := by
  induction KS with
  | nil =>
    intro acc l0 w0 hl hw
    simp only [List.foldl_nil, List.flatMap_nil, List.append_nil]
    rw [Dict.set_self _ hl, Dict.set_self _ hw]
  | cons k KS ih =>
    intro acc l0 w0 hl hw
    rw [List.foldl_cons]
    have hl' : acc.seq_seps.val path = some l0 := hl
    have hw' : acc.weights.val path = some w0 := hw
    have hstep : chromoStep false path st acc k =
        { acc with
          seq_seps_all := acc.seq_seps_all ++ pieceS st k,
          weights_all := acc.weights_all ++ pieceW st k,
          seq_seps := acc.seq_seps.set path (l0 ++ pieceS st k),
          weights := acc.weights.set path (w0 ++ pieceW st k) } := by
      simp [chromoStep, pieceS, pieceW, hl', hw', Dict.get, Dict.set]
    rw [hstep, ih _ (l0 ++ pieceS st k) (w0 ++ pieceW st k) (by simp) (by simp)]
    simp [Dict.set_set, List.append_assoc]

/-! ## Extent-map lemmas -/

theorem containsRec_stepLimits (d : Dict (Int × Int)) (r r' : NccRecord)
    (h : containsRec d r) : containsRec (stepLimits d r') r := by
  obtain ⟨s, e, hget, hlo, hhi⟩ := h
  unfold stepLimits
  by_cases hc : r'.chr_a = r'.chr_b
  · rw [if_pos hc]
    by_cases hchr : r.chr_a = r'.chr_a
    · have hget' : d.get r'.chr_a = some (s, e) := by rw [← hchr]; exact hget
      rw [hget']
      refine ⟨min s (cisLo r'), max e (cisHi r'), ?_, le_trans (min_le_left _ _) hlo,
        le_trans hhi (le_max_left _ _)⟩
      rw [hchr]
      exact Dict.get_set_self _ _ _
    · rcases hd : d.get r'.chr_a with _ | ⟨s', e'⟩
      · exact ⟨s, e, by rw [Dict.get_set_ne _ _ hchr]; exact hget, hlo, hhi⟩
      · exact ⟨s, e, by rw [Dict.get_set_ne _ _ hchr]; exact hget, hlo, hhi⟩
  · rw [if_neg hc]
    exact ⟨s, e, hget, hlo, hhi⟩

theorem containsRec_foldLimits (L : List NccRecord) (d : Dict (Int × Int)) (r : NccRecord)
    (h : containsRec d r) : containsRec (L.foldl stepLimits d) r := by
  induction L generalizing d with
  | nil => exact h
  | cons r' L ih => exact ih _ (containsRec_stepLimits _ _ _ h)

theorem containsRec_self (d : Dict (Int × Int)) (r : NccRecord) (hc : r.chr_a = r.chr_b) :
    containsRec (stepLimits d r) r := by
  unfold stepLimits
  rw [if_pos hc]
  rcases hd : d.get r.chr_a with _ | ⟨s, e⟩
  · exact ⟨cisLo r, cisHi r, Dict.get_set_self _ _ _, le_refl _, le_refl _⟩
  · exact ⟨min s (cisLo r), max e (cisHi r), Dict.get_set_self _ _ _,
      min_le_right _ _, le_max_right _ _⟩

theorem mem_containsRec_foldLimits (L : List NccRecord) (d : Dict (Int × Int))
    (r : NccRecord) (hr : r ∈ L) (hc : r.chr_a = r.chr_b) :
    containsRec (L.foldl stepLimits d) r := by
  induction L generalizing d with
  | nil => cases hr
  | cons r' L ih =>
    rw [List.foldl_cons]
    rcases List.mem_cons.mp hr with h | h
    · subst h
      exact containsRec_foldLimits L _ r (containsRec_self d r hc)
    · exact ih _ h

theorem stepLimits_absorbed (d : Dict (Int × Int)) (r : NccRecord)
    (h : r.chr_a = r.chr_b → containsRec d r) : stepLimits d r = d := by
  by_cases hc : r.chr_a = r.chr_b
  · obtain ⟨s, e, hget, hlo, hhi⟩ := h hc
    unfold stepLimits
    rw [if_pos hc, hget]
    show d.set r.chr_a (min s (cisLo r), max e (cisHi r)) = d
    rw [min_eq_left hlo, max_eq_left hhi]
    exact Dict.set_self _ hget
  · simp [stepLimits, hc]

theorem foldLimits_absorbed (L : List NccRecord) (d : Dict (Int × Int))
    (h : ∀ r ∈ L, r.chr_a = r.chr_b → containsRec d r) : L.foldl stepLimits d = d := by
  induction L with
  | nil => rfl
  | cons r L ih =>
    rw [List.foldl_cons, stepLimits_absorbed d r (h r (by simp))]
    exact ih (fun r' hr' => h r' (by simp [hr']))

/-- Re-streaming the same records over the extent map they built changes
nothing: the min/max updates absorb. -/
theorem foldLimits_limitsOf (L : List NccRecord) :
    L.foldl stepLimits (limitsOf L) = limitsOf L :=
  foldLimits_absorbed L _ (fun r hr hc => mem_containsRec_foldLimits L Dict.empty r hr hc)

/-! ## Contact-map lemmas -/

theorem cisPairs_cons (r : NccRecord) (L : List NccRecord) (chr : String) :
    cisPairs (r :: L) chr =
      if r.chr_a = r.chr_b ∧ r.chr_a = chr then anchorsOf r :: cisPairs L chr
      else cisPairs L chr := by
  unfold cisPairs
  rw [List.filter_cons]
  by_cases h : r.chr_a = r.chr_b ∧ r.chr_a = chr
  · have hb : decide (r.chr_a = r.chr_b ∧ r.chr_a = chr) = true := decide_eq_true h
    rw [if_pos hb, if_pos h, List.map_cons]
  · have hb : ¬(decide (r.chr_a = r.chr_b ∧ r.chr_a = chr) = true) :=
      fun hx => h (of_decide_eq_true hx)
    rw [if_neg hb, if_neg h]

theorem foldContacts_get_some (L : List NccRecord) :
    ∀ (d : Dict (List (Int × Int))) (chr : String) (dl : List (Int × Int)),
      d.get chr = some dl →
      (L.foldl stepContacts d).get chr = some (dl ++ cisPairs L chr) := by
  induction L with
  | nil => intro d chr dl h; simpa [cisPairs] using h
  | cons r L ih =>
    intro d chr dl h
    rw [List.foldl_cons, cisPairs_cons]
    by_cases hc : r.chr_a = r.chr_b
    · by_cases hchr : r.chr_a = chr
      · have hget : d.get r.chr_a = some dl := by rw [hchr]; exact h
        have hstep : (stepContacts d r).get chr = some (dl ++ [anchorsOf r]) := by
          unfold stepContacts
          rw [if_pos hc, hget, ← hchr]
          simp
        rw [ih _ _ _ hstep,
          if_pos (show r.chr_a = r.chr_b ∧ r.chr_a = chr from ⟨hc, hchr⟩)]
        simp [List.append_assoc]
      · have hne : chr ≠ r.chr_a := fun hx => hchr hx.symm
        have hstep : (stepContacts d r).get chr = some dl := by
          unfold stepContacts
          rw [if_pos hc, Dict.get_set_ne _ _ hne]
          exact h
        rw [ih _ _ _ hstep,
          if_neg (show ¬(r.chr_a = r.chr_b ∧ r.chr_a = chr) from fun hx => hchr hx.2)]
    · have hstep : (stepContacts d r).get chr = some dl := by
        unfold stepContacts
        rw [if_neg hc]
        exact h
      rw [ih _ _ _ hstep,
        if_neg (show ¬(r.chr_a = r.chr_b ∧ r.chr_a = chr) from fun hx => hc hx.1)]

theorem foldContacts_get_none (L : List NccRecord) :
    ∀ (d : Dict (List (Int × Int))) (chr : String), d.get chr = none →
      (L.foldl stepContacts d).get chr =
        if cisPairs L chr = [] then none else some (cisPairs L chr) := by
  induction L with
  | nil => intro d chr h; simpa [cisPairs] using h
  | cons r L ih =>
    intro d chr h
    rw [List.foldl_cons, cisPairs_cons]
    by_cases hc : r.chr_a = r.chr_b
    · by_cases hchr : r.chr_a = chr
      · have hget : d.get r.chr_a = none := by rw [hchr]; exact h
        have hstep : (stepContacts d r).get chr = some [anchorsOf r] := by
          unfold stepContacts
          rw [if_pos hc, hget, ← hchr]
          simp
        rw [foldContacts_get_some L _ _ _ hstep,
          if_pos (show r.chr_a = r.chr_b ∧ r.chr_a = chr from ⟨hc, hchr⟩)]
        simp
      · have hne : chr ≠ r.chr_a := fun hx => hchr hx.symm
        have hstep : (stepContacts d r).get chr = none := by
          unfold stepContacts
          rw [if_pos hc, Dict.get_set_ne _ _ hne]
          exact h
        rw [ih _ _ hstep,
          if_neg (show ¬(r.chr_a = r.chr_b ∧ r.chr_a = chr) from fun hx => hchr hx.2)]
    · have hstep : (stepContacts d r).get chr = none := by
        unfold stepContacts
        rw [if_neg hc]
        exact h
      rw [ih _ _ hstep,
        if_neg (show ¬(r.chr_a = r.chr_b ∧ r.chr_a = chr) from fun hx => hc hx.1)]

theorem contactsOf_get (L : List NccRecord) (chr : String) :
    (contactsOf L).get chr =
      if cisPairs L chr = [] then none else some (cisPairs L chr) :=
  foldContacts_get_none L Dict.empty chr rfl

/-! ## State projections through a whole file and a whole group -/

theorem chromoStep_preserves (ms : Bool) (path : String) (st acc : GroupState)
    (chr : String) :
    (chromoStep ms path st acc chr).chromo_limits = acc.chromo_limits ∧
    (chromoStep ms path st acc chr).contacts = acc.contacts := by
  unfold chromoStep
  by_cases hms : ms <;> simp [hms]

theorem chromoLoop_preserves (ms : Bool) (path : String) (st : GroupState)
    (KS : List String) : ∀ acc : GroupState,
    ((KS.foldl (chromoStep ms path st) acc).chromo_limits = acc.chromo_limits ∧
     (KS.foldl (chromoStep ms path st) acc).contacts = acc.contacts) := by
  induction KS with
  | nil => intro acc; exact ⟨rfl, rfl⟩
  | cons k KS ih =>
    intro acc
    rw [List.foldl_cons]
    obtain ⟨h1, h2⟩ := ih (chromoStep ms path st acc k)
    obtain ⟨g1, g2⟩ := chromoStep_preserves ms path st acc k
    exact ⟨h1.trans g1, h2.trans g2⟩

theorem chromoLimits_processFile (ms : Bool) (st : GroupState) (f : NccFile) :
    (processFile ms st f).chromo_limits = f.lines.foldl stepLimits st.chromo_limits := by
  unfold processFile afterFileChromoLoop
  rw [(chromoLoop_preserves ms f.path _ _ _).1, processLine_fold]

theorem contacts_processFile (ms : Bool) (st : GroupState) (f : NccFile) :
    (processFile ms st f).contacts = f.lines.foldl stepContacts st.contacts := by
  unfold processFile afterFileChromoLoop
  rw [(chromoLoop_preserves ms f.path _ _ _).2, processLine_fold]

theorem chromoLimits_foldFiles (ms : Bool) (files : List NccFile) :
    ∀ st : GroupState,
      (files.foldl (processFile ms) st).chromo_limits =
        (files.flatMap NccFile.lines).foldl stepLimits st.chromo_limits := by
  induction files with
  | nil => intro st; rfl
  | cons f fs ih =>
    intro st
    rw [List.foldl_cons, ih, chromoLimits_processFile, List.flatMap_cons, List.foldl_append]

theorem contacts_foldFiles (ms : Bool) (files : List NccFile) :
    ∀ st : GroupState,
      (files.foldl (processFile ms) st).contacts =
        (files.flatMap NccFile.lines).foldl stepContacts st.contacts := by
  induction files with
  | nil => intro st; rfl
  | cons f fs ih =>
    intro st
    rw [List.foldl_cons, ih, contacts_processFile, List.flatMap_cons, List.foldl_append]

/-! ## Label handling (lines 208-209) -/

theorem labels_step_drop (labels : List String) (n : Nat) :
    (if labels.isEmpty then labels else labels.tail).drop n = labels.drop (n + 1) := by
  cases labels with
  | nil => simp
  | cons a t => simp

theorem labels_after_runGroupsAux (ms : Bool) (edges : List ℚ) (groups : List (List NccFile)) :
    ∀ (labels : List String) (rs : List GroupResult) (ls : List String),
      runGroupsAux ms edges groups labels = .ok (rs, ls) → ls = labels.drop groups.length := by
  induction groups with
  | nil =>
    intro labels rs ls h
    simp only [runGroupsAux] at h
    rw [← (Prod.mk.injEq _ _ _ _).mp (Except.ok.injEq _ _ |>.mp h) |>.2]
    simp
  | cons g gs ih =>
    intro labels rs ls h
    simp only [runGroupsAux] at h
    rcases hg : groupOutcome ms edges g with e | res
    · rw [hg] at h; cases h
    · rw [hg] at h
      rcases hrec : runGroupsAux ms edges gs (if labels.isEmpty then labels else labels.tail)
        with e | p
      · rw [hrec] at h; cases h
      · rw [hrec] at h
        have hp := ih _ _ _ hrec
        have hls : ls = p.2 := ((Prod.mk.injEq _ _ _ _).mp (Except.ok.injEq _ _ |>.mp h)).2.symm
        rw [hls, hp, labels_step_drop]
        simp [List.length_cons]

theorem chromoBase_eq (L : List NccRecord) (chr : String) :
    chromoBase L chr = cisPairs L chr := by
  rw [chromoBase, contactsOf_get]
  by_cases h : cisPairs L chr = []
  · simp [h]
  · simp [h]

/-! ## Whole-file characterisations -/

theorem processFile_false_spec (st : GroupState) (f : NccFile) :
    processFile false st f =
      { midState st f with
        seq_seps_all :=
          st.seq_seps_all ++ (midState st f).contacts.keys.flatMap (pieceS (midState st f)),
        weights_all :=
          st.weights_all ++ (midState st f).contacts.keys.flatMap (pieceW (midState st f)),
        seq_seps :=
          st.seq_seps.set f.path ((midState st f).contacts.keys.flatMap (pieceS (midState st f))),
        weights :=
          st.weights.set f.path ((midState st f).contacts.keys.flatMap (pieceW (midState st f))) } := by
  show afterFileChromoLoop false f.path (f.lines.foldl processLine (resetState st f)) = _
  rw [processLine_fold]
  show (midState st f).contacts.keys.foldl (chromoStep false f.path (midState st f))
      (midState st f) = _
  rw [chromoLoop_false (midState st f) f.path (midState st f).contacts.keys (midState st f)
    [] [] (Dict.get_set_self st.seq_seps f.path []) (Dict.get_set_self st.weights f.path [])]
  simp only [midState, List.nil_append, Dict.set_set]

theorem processFile_true_spec (st : GroupState) (f : NccFile) :
    processFile true st f =
      { midState st f with
        seq_seps_all :=
          st.seq_seps_all ++ (midState st f).contacts.keys.flatMap (pieceS (midState st f)),
        weights_all :=
          st.weights_all ++ (midState st f).contacts.keys.flatMap (pieceW (midState st f)) } := by
  show afterFileChromoLoop true f.path (f.lines.foldl processLine (resetState st f)) = _
  rw [processLine_fold]
  show (midState st f).contacts.keys.foldl (chromoStep true f.path (midState st f))
      (midState st f) = _
  rw [chromoLoop_true (midState st f) f.path (midState st f).contacts.keys (midState st f)]
  rfl

/-! ## Int32 arithmetic on in-range coordinates -/

theorem toInt32_eq_self (n : Int) (h1 : -(2 ^ 31) ≤ n) (h2 : n < 2 ^ 31) :
    toInt32 n = n := by
  unfold toInt32
  have h3 : 0 ≤ n + 2 ^ 31 := by linarith
  have h4 : n + 2 ^ 31 < 2 ^ 32 := by norm_num at h2 ⊢; linarith
  rw [Int.emod_eq_of_lt h3 h4]
  ring

theorem sep32_eq_abs (a b : Int) (h : pairOK (a, b)) : sep32 a b = |a - b| := by
  obtain ⟨ha0, ha1, hb0, hb1⟩ := h
  simp only at ha0 ha1 hb0 hb1
  have hA : toInt32 a = a := toInt32_eq_self a (by linarith) ha1
  have hB : toInt32 b = b := toInt32_eq_self b (by linarith) hb1
  unfold sep32
  rw [hA, hB]
  have hd : toInt32 (a - b) = a - b := toInt32_eq_self _ (by linarith) (by linarith)
  rw [hd]
  have habs : ((a - b).natAbs : Int) = |a - b| := Int.abs_eq_natAbs _ |>.symm
  rw [habs]
  have hnn := abs_nonneg (a - b)
  exact toInt32_eq_self _ (by linarith) (by rw [abs_sub_lt_iff]; constructor <;> linarith)

theorem chromoPairs_pos (cl : List (Int × Int)) (hcl : ∀ pr ∈ cl, pairOK pr) :
    ∀ s ∈ chromoPairs cl, 0 < s := by
  intro s hs
  unfold chromoPairs at hs
  obtain ⟨hmem, hne⟩ := List.mem_filter.mp hs
  obtain ⟨pr, hpr, hsep⟩ := List.mem_map.mp hmem
  have hzero : s ≠ 0 := by simpa using hne
  have habs : s = |pr.1 - pr.2| := by
    rw [← hsep, sep32_eq_abs pr.1 pr.2 (by rcases pr with ⟨x, y⟩; exact hcl _ hpr)]
  have : 0 ≤ s := habs ▸ abs_nonneg _
  omega

theorem anchorsOf_pairOK (r : NccRecord) (h : coordOK r) : pairOK (anchorsOf r) := by
  obtain ⟨h1, h2, h3, h4, h5, h6, h7, h8⟩ := h
  exact ⟨h3, h4, h7, h8⟩

theorem mem_cisPairs (L : List NccRecord) (chr : String) (q : Int × Int)
    (hq : q ∈ cisPairs L chr) : ∃ r, r ∈ L ∧ r.chr_a = r.chr_b ∧ q = anchorsOf r := by
  unfold cisPairs at hq
  obtain ⟨r, hr, hq'⟩ := List.mem_map.mp hq
  obtain ⟨hrL, hrb⟩ := List.mem_filter.mp hr
  exact ⟨r, hrL, (of_decide_eq_true hrb).1, hq'.symm⟩

theorem mem_foldContacts (L : List NccRecord) (d : Dict (List (Int × Int))) (chr : String)
    (pr : Int × Int) (h : pr ∈ ((L.foldl stepContacts d).get chr).getD []) :
    pr ∈ (d.get chr).getD [] ∨ ∃ r, r ∈ L ∧ r.chr_a = r.chr_b ∧ pr = anchorsOf r := by
  rcases hd : d.get chr with _ | dl
  · rw [foldContacts_get_none L d chr hd] at h
    by_cases hnil : cisPairs L chr = []
    · rw [if_pos hnil] at h
      cases h
    · rw [if_neg hnil] at h
      simp only [Option.getD_some] at h
      exact Or.inr (mem_cisPairs L chr pr h)
  · rw [foldContacts_get_some L d chr dl hd] at h
    simp only [Option.getD_some] at h
    rcases List.mem_append.mp h with h | h
    · exact Or.inl (by simpa using h)
    · exact Or.inr (mem_cisPairs L chr pr h)

theorem flatMap_eq_nil_of {α β : Type} (ks : List α) (f : α → List β)
    (h : ∀ k ∈ ks, f k = []) : ks.flatMap f = [] := by
  induction ks with
  | nil => rfl
  | cons k ks ih =>
    rw [List.flatMap_cons, h k (by simp), List.nil_append]
    exact ih (fun k hk => h k (by simp [hk]))

/-! ## Supporting lemmas for the identical-files invariant (C7) -/

theorem repList_nil {α : Type} (m : Nat) : repList m ([] : List α) = [] := by
  induction m with
  | zero => rfl
  | succ m ih => simp [repList, ih]

theorem getD_map_repList (o : Option (List (Int × Int))) (m : Nat) :
    (o.map (repList m)).getD [] = repList m (o.getD []) := by
  cases o with
  | none => simp [repList_nil]
  | some l => simp

theorem Dict.keys_set_of_none {α : Type} (d : Dict α) (k : String) (v : α)
    (h : d.get k = none) : (d.set k v).keys = d.keys ++ [k] := by
  have h' : d.val k = none := h
  simp only [Dict.set, h', Option.isSome_none, if_false]
  simp

theorem withIdx_mem_snd {α : Type} {i : Nat} {l : List α} {pr : Nat × α}
    (h : pr ∈ withIdx i l) : pr.2 ∈ l := by
  induction l generalizing i with
  | nil => cases h
  | cons a l ih =>
    rcases List.mem_cons.mp h with h | h
    · simp [h]
    · simp [ih h]

theorem flatMap_congr {α β : Type} (l : List α) (f g : α → List β)
    (h : ∀ a ∈ l, f a = g a) : l.flatMap f = l.flatMap g := by
  induction l with
  | nil => rfl
  | cons a l ih =>
    rw [List.flatMap_cons, List.flatMap_cons, h a (by simp),
      ih (fun a ha => h a (by simp [ha]))]

theorem map_flatMap_list {α β γ : Type} (l : List α) (f : α → List β) (g : β → γ) :
    (l.flatMap f).map g = l.flatMap (fun a => (f a).map g) := by
  induction l with
  | nil => rfl
  | cons a l ih => simp [List.flatMap_cons, ih]

theorem zip_flatMap {α β γ : Type} (ks : List γ) (f : γ → List α) (g : γ → List β)
    (h : ∀ k, (f k).length = (g k).length) :
    (ks.flatMap f).zip (ks.flatMap g) = ks.flatMap (fun k => (f k).zip (g k)) := by
  induction ks with
  | nil => rfl
  | cons k ks ih =>
    rw [List.flatMap_cons, List.flatMap_cons, List.flatMap_cons,
      List.zip_append (h k), ih]

theorem chromoPairs_repList (m : Nat) (cl : List (Int × Int)) :
    chromoPairs (repList m cl) = repList m (chromoPairs cl) := by
  unfold chromoPairs
  rw [map_repList, filter_repList]

theorem chromoWeights_repList (lim : Int × Int) (m : Nat) (seps : List Int) :
    chromoWeights lim (repList m seps) = repList m (chromoWeights lim seps) := by
  unfold chromoWeights
  rw [map_repList]

theorem cisPairs_ne_nil_of_mem (L : List NccRecord) (r : NccRecord) (hr : r ∈ L)
    (hc : r.chr_a = r.chr_b) : cisPairs L r.chr_a ≠ [] := by
  have hmem : anchorsOf r ∈ cisPairs L r.chr_a := by
    unfold cisPairs
    exact List.mem_map_of_mem anchorsOf
      (List.mem_filter.mpr ⟨hr, decide_eq_true ⟨hc, rfl⟩⟩)
  exact List.ne_nil_of_mem hmem

theorem get_isSome_stepContacts (d : Dict (List (Int × Int))) (r : NccRecord)
    (chr : String) (h : (d.get chr).isSome) : ((stepContacts d r).get chr).isSome := by
  unfold stepContacts
  by_cases hc : r.chr_a = r.chr_b
  · rw [if_pos hc]
    by_cases hchr : chr = r.chr_a
    · rw [hchr, Dict.get_set_self]
      rfl
    · rw [Dict.get_set_ne _ _ hchr]
      exact h
  · rw [if_neg hc]
    exact h

theorem keys_foldContacts_stable (L : List NccRecord) :
    ∀ d : Dict (List (Int × Int)),
      (∀ r ∈ L, r.chr_a = r.chr_b → (d.get r.chr_a).isSome) →
      (L.foldl stepContacts d).keys = d.keys := by
  induction L with
  | nil => intro d _; rfl
  | cons r L ih =>
    intro d h
    rw [List.foldl_cons]
    have hkeys : (stepContacts d r).keys = d.keys := by
      unfold stepContacts
      by_cases hc : r.chr_a = r.chr_b
      · rw [if_pos hc]
        exact Dict.keys_set_of_isSome d r.chr_a _ (h r (by simp) hc)
      · rw [if_neg hc]
    rw [← hkeys]
    refine ih _ ?_
    intro r' hr' hc'
    exact get_isSome_stepContacts d r r'.chr_a (h r' (by simp [hr']) hc')

theorem getD_zero_of_all {l : List ℚ} (h : ∀ x ∈ l, x = 0) (j : Nat) : l.getD j 0 = 0 := by
  induction l generalizing j with
  | nil => simp
  | cons a l ih =>
    cases j with
    | zero => rw [List.getD_cons_zero]; exact h a (by simp)
    | succ j => rw [List.getD_cons_succ]; exact ih (fun x hx => h x (by simp [hx])) j

theorem sum_const_of_all (l : List ℚ) (c : ℚ) (h : ∀ x ∈ l, x = c) :
    l.sum = (l.length : ℚ) * c := by
  induction l with
  | nil => simp
  | cons a l ih =>
    have ha := h a (by simp)
    rw [List.length_cons, List.sum_cons, ih (fun x hx => h x (by simp [hx])), ha]
    push_cast
    ring

theorem sampleVar_const (xs : List ℚ) (c : ℚ) (h : ∀ x ∈ xs, x = c) :
    sampleVar xs = 0 := by
  rcases xs with _ | ⟨a, l⟩
  · simp [sampleVar]
  · have hlen : (((a :: l).length : ℕ) : ℚ) ≠ 0 := Nat.cast_ne_zero.mpr (by simp)
    have hmean : (a :: l).sum / (((a :: l).length : ℕ) : ℚ) = c := by
      rw [sum_const_of_all _ c h, mul_comm, mul_div_assoc, div_self hlen, mul_one]
    unfold sampleVar
    rw [hmean]
    have hdev : (a :: l).map (fun x => (x - c) ^ 2) = (a :: l).map (fun _ => (0 : ℚ)) := by
      apply List.map_congr_left
      intro x hx
      rw [h x hx]
      ring
    rw [hdev]
    simp

/-! ## The identical-files invariant (C7) -/

theorem map_repList_one (o : Option (List (Int × Int))) : o.map (repList 1) = o := by
  cases o <;> simp [repList_one]

theorem c7Inv_base (L : List NccRecord) (p : String) :
    c7Inv L [p] (processFile false initState ⟨p, L⟩) := by
  rw [processFile_false_spec]
  have hmid_lim : (midState initState ⟨p, L⟩).chromo_limits = limitsOf L := rfl
  have hmid_con : (midState initState ⟨p, L⟩).contacts = contactsOf L := rfl
  have hpieceS : ∀ chr ∈ (contactsOf L).keys, pieceS (midState initState ⟨p, L⟩) chr =
      chromoPairs (repList 1 (chromoBase L chr)) := by
    intro chr _
    unfold pieceS
    rw [hmid_con, repList_one]
    rfl
  have hflatS : (midState initState ⟨p, L⟩).contacts.keys.flatMap
      (pieceS (midState initState ⟨p, L⟩)) = perSeps L 1 := by
    rw [hmid_con]
    exact flatMap_congr _ _ _ hpieceS
  have hpieceW : ∀ chr ∈ (contactsOf L).keys, pieceW (midState initState ⟨p, L⟩) chr =
      chromoWeights (((limitsOf L).get chr).getD (0, 0))
        (chromoPairs (repList 1 (chromoBase L chr))) := by
    intro chr hchr
    unfold pieceW
    rw [hmid_lim, hpieceS chr hchr]
  have hflatW : (midState initState ⟨p, L⟩).contacts.keys.flatMap
      (pieceW (midState initState ⟨p, L⟩)) = perW L 1 := by
    rw [hmid_con]
    exact flatMap_congr _ _ _ hpieceW
  refine ⟨hmid_lim, by rw [hmid_con], ?_, ?_, ?_, ?_⟩
  · intro chr
    show (contactsOf L).get chr = ((contactsOf L).get chr).map (repList 1)
    rw [map_repList_one]
  · show ((Dict.empty : Dict (List Int)).set p _).keys = [p]
    rw [Dict.keys_set_of_none (Dict.empty : Dict (List Int)) p _ rfl]
    rfl
  · intro pr hpr
    have hpr1 : pr = (0, p) := by simpa [withIdx] using hpr
    rw [hpr1]
    constructor
    · show ((Dict.empty : Dict (List Int)).set p _).get p = _
      rw [Dict.get_set_self, hflatS]
    · show ((Dict.empty : Dict (List ℚ)).set p _).get p = _
      rw [Dict.get_set_self, hflatW]
  · intro q hq
    have hqp : q ≠ p := by simpa using hq
    constructor
    · show ((Dict.empty : Dict (List Int)).set p _).get q = none
      rw [Dict.get_set_ne _ _ hqp]
      rfl
    · show ((Dict.empty : Dict (List ℚ)).set p _).get q = none
      rw [Dict.get_set_ne _ _ hqp]
      rfl

theorem c7Inv_step (L : List NccRecord) (done : List String) (st : GroupState)
    (hinv : c7Inv L done st) (p : String) (hp : p ∉ done) :
    c7Inv L (done ++ [p]) (processFile false st ⟨p, L⟩) := by
  obtain ⟨h1, h2, h3, h4, h5, h6⟩ := hinv
  have hlim_mid : (midState st ⟨p, L⟩).chromo_limits = limitsOf L := by
    show L.foldl stepLimits st.chromo_limits = limitsOf L
    rw [h1]
    exact foldLimits_limitsOf L
  have hcon_isSome : ∀ r ∈ L, r.chr_a = r.chr_b → (st.contacts.get r.chr_a).isSome := by
    intro r hr hc
    rw [h3]
    have hsome : (contactsOf L).get r.chr_a = some (cisPairs L r.chr_a) := by
      rw [contactsOf_get, if_neg (cisPairs_ne_nil_of_mem L r hr hc)]
    rw [hsome]
    rfl
  have hmid_keys : (midState st ⟨p, L⟩).contacts.keys = (contactsOf L).keys := by
    show (L.foldl stepContacts st.contacts).keys = _
    rw [keys_foldContacts_stable L st.contacts hcon_isSome, h2]
  have hmid_get : ∀ chr, (midState st ⟨p, L⟩).contacts.get chr =
      ((contactsOf L).get chr).map (repList (done.length + 1)) := by
    intro chr
    show (L.foldl stepContacts st.contacts).get chr = _
    rcases hB : (contactsOf L).get chr with _ | B
    · have hcis : cisPairs L chr = [] := by
        by_contra hne2
        rw [contactsOf_get, if_neg hne2] at hB
        cases hB
      have hst : st.contacts.get chr = none := by rw [h3, hB]; rfl
      rw [foldContacts_get_none L st.contacts chr hst, if_pos hcis]
      rfl
    · have hcis : cisPairs L chr = B := by
        rw [contactsOf_get] at hB
        by_cases hnil : cisPairs L chr = []
        · rw [if_pos hnil] at hB; cases hB
        · rw [if_neg hnil] at hB
          exact (Option.some.injEq _ _).mp hB
      have hst : st.contacts.get chr = some (repList done.length B) := by
        rw [h3, hB]
        rfl
      rw [foldContacts_get_some L st.contacts chr _ hst, hcis, ← repList_succ_right]
      rfl
  have hpieceS : ∀ chr ∈ (contactsOf L).keys, pieceS (midState st ⟨p, L⟩) chr =
      chromoPairs (repList (done.length + 1) (chromoBase L chr)) := by
    intro chr _
    unfold pieceS
    rw [hmid_get chr, getD_map_repList]
    rfl
  have hflatS : (midState st ⟨p, L⟩).contacts.keys.flatMap (pieceS (midState st ⟨p, L⟩)) =
      perSeps L (done.length + 1) := by
    rw [hmid_keys]
    exact flatMap_congr _ _ _ hpieceS
  have hpieceW : ∀ chr ∈ (contactsOf L).keys, pieceW (midState st ⟨p, L⟩) chr =
      chromoWeights (((limitsOf L).get chr).getD (0, 0))
        (chromoPairs (repList (done.length + 1) (chromoBase L chr))) := by
    intro chr hchr
    unfold pieceW
    rw [hlim_mid, hpieceS chr hchr]
  have hflatW : (midState st ⟨p, L⟩).contacts.keys.flatMap (pieceW (midState st ⟨p, L⟩)) =
      perW L (done.length + 1) := by
    rw [hmid_keys]
    exact flatMap_congr _ _ _ hpieceW
  have hlen : (done ++ [p]).length = done.length + 1 := by simp
  rw [processFile_false_spec]
  refine ⟨hlim_mid, hmid_keys, ?_, ?_, ?_, ?_⟩
  · intro chr
    show (midState st ⟨p, L⟩).contacts.get chr = _
    rw [hlen]
    exact hmid_get chr
  · show (st.seq_seps.set p _).keys = done ++ [p]
    rw [Dict.keys_set_of_none _ _ _ (h6 p hp).1, h4]
  · intro pr hpr
    rw [show withIdx 0 (done ++ [p]) = withIdx 0 done ++ [(0 + done.length, p)] from
      withIdx_snoc 0 done p] at hpr
    rcases List.mem_append.mp hpr with hold | hnew
    · have hq : pr.2 ∈ done := withIdx_mem_snd hold
      have hqp : pr.2 ≠ p := fun hx => hp (hx ▸ hq)
      constructor
      · show (st.seq_seps.set p _).get pr.2 = _
        rw [Dict.get_set_ne _ _ hqp]
        exact (h5 pr hold).1
      · show (st.weights.set p _).get pr.2 = _
        rw [Dict.get_set_ne _ _ hqp]
        exact (h5 pr hold).2
    · have hpr1 : pr = (0 + done.length, p) := by simpa using hnew
      rw [hpr1]
      constructor
      · show (st.seq_seps.set p _).get p = _
        rw [Dict.get_set_self, hflatS]
        rw [show 0 + done.length + 1 = done.length + 1 from by omega]
      · show (st.weights.set p _).get p = _
        rw [Dict.get_set_self, hflatW]
        rw [show 0 + done.length + 1 = done.length + 1 from by omega]
  · intro q hq
    have hqd : q ∉ done := fun hx => hq (by simp [hx])
    have hqp : q ≠ p := fun hx => hq (by simp [hx])
    constructor
    · show (st.seq_seps.set p _).get q = none
      rw [Dict.get_set_ne _ _ hqp]
      exact (h6 q hqd).1
    · show (st.weights.set p _).get q = none
      rw [Dict.get_set_ne _ _ hqp]
      exact (h6 q hqd).2

theorem c7Inv_fold (L : List NccRecord) (rest : List String) :
    ∀ (done : List String) (st : GroupState),
      c7Inv L done st → (∀ q ∈ rest, q ∉ done) → rest.Nodup →
      c7Inv L (done ++ rest)
        ((rest.map (fun q => (⟨q, L⟩ : NccFile))).foldl (processFile false) st) := by
  induction rest with
  | nil =>
    intro done st hinv _ _
    simpa using hinv
  | cons q rest ih =>
    intro done st hinv hdisj hnd
    rw [List.map_cons, List.foldl_cons]
    have hstep := c7Inv_step L done st hinv q (hdisj q (by simp))
    have hnodup := List.nodup_cons.mp hnd
    have hrec := ih (done ++ [q]) _ hstep ?_ hnodup.2
    · rw [show done ++ q :: rest = (done ++ [q]) ++ rest from by simp]
      exact hrec
    · intro x hx
      simp only [List.mem_append, List.mem_singleton]
      push_neg
      exact ⟨hdisj x (by simp [hx]), fun hxq => hnodup.1 (hxq ▸ hx)⟩

theorem c7Inv_run (L : List NccRecord) (paths : List String) (hne : paths ≠ [])
    (hnd : paths.Nodup) :
    c7Inv L paths (processGroup false (paths.map (fun q => (⟨q, L⟩ : NccFile)))) := by
  rcases paths with _ | ⟨p, rest⟩
  · exact absurd rfl hne
  · have hnodup := List.nodup_cons.mp hnd
    have h := c7Inv_fold L rest [p] (processFile false initState ⟨p, L⟩) (c7Inv_base L p)
      (fun x hx => by
        simp only [List.mem_singleton]
        exact fun hxp => hnodup.1 (hxp ▸ hx))
      hnodup.2
    simpa using h

theorem perFileData_shape (L : List NccRecord) (m : Nat) :
    ((perSeps L m).map (fun s : Int => (s : ℚ))).zip (perW L m) =
      (contactsOf L).keys.flatMap (fun chr =>
        repList m (((chromoPairs (chromoBase L chr)).map (fun s : Int => (s : ℚ))).zip
          (chromoWeights (((limitsOf L).get chr).getD (0, 0))
            (chromoPairs (chromoBase L chr))))) := by
  unfold perSeps perW
  rw [map_flatMap_list, zip_flatMap]
  · apply flatMap_congr
    intro chr _
    rw [chromoPairs_repList, map_repList, chromoWeights_repList, zip_repList]
    simp [chromoWeights]
  · intro chr
    simp [chromoWeights]

theorem histNormed_perFileData (edges : List ℚ) (L : List NccRecord) (m : Nat)
    (hm : m ≠ 0) :
    histNormed edges (((perSeps L m).map (fun s : Int => (s : ℚ))).zip (perW L m)) =
      histNormed edges (singleData L) := by
  rw [perFileData_shape L m, histNormed_flatMap_repList edges _ _ m hm]
  have h1 : singleData L = (contactsOf L).keys.flatMap (fun chr =>
      repList 1 (((chromoPairs (chromoBase L chr)).map (fun s : Int => (s : ℚ))).zip
        (chromoWeights (((limitsOf L).get chr).getD (0, 0))
          (chromoPairs (chromoBase L chr))))) := perFileData_shape L 1
  rw [h1, histNormed_flatMap_repList edges _ _ 1 one_ne_zero]

/-! ## Claim theorems -/

/-- Claim C1 (code bug): the spec says the anchor of each contact end is
selected by strand sign (fragment end for a positive strand, fragment
start for a negative one) and that both branches are exercised.  In the
source the strand field is never `int()`-parsed, so `strand > 0` compares
a `str` with an `int`, which is always `True` in Python 2: the anchor is
the fragment end for every strand value and the fragment-start branch is
dead.  On the concrete record with strands `+`/`-` both anchors are the
fragment ends (200, 400); the claim expects (200, 300). -/
theorem claim1_anchor_ignores_strand :
    (∀ (strand : String) (fs fe : Int), anchorPos strand fs fe = fe) ∧
    anchorPos "-1" 100 200 = 200 ∧ anchorPos "-" 100 200 = 200 ∧
    anchorsOf (mkRec "c" 100 200 300 400) = (200, 400) :=
  ⟨fun _ _ _ => rfl, rfl, rfl, rfl⟩

/-- Claim C2 (amended): the extent map is *group*-scoped, not
file-scoped: the `chromo_limits` available after any prefix of the
group's files is the fold of the extent update over the concatenated
records of all files of that prefix, so records of earlier files do
influence the usable length applied to a later file's contacts (the
extent used is still the one reached after the whole current file has
been scanned, because the weight loop runs after the file's read loop). -/
theorem claim2_amended_group_scoped (ms : Bool) (files : List NccFile) (n : Nat) :
    (processGroup ms (files.take n)).chromo_limits =
      limitsOf ((files.take n).flatMap NccFile.lines) :=
  chromoLimits_foldFiles ms (files.take n) initState

/-- Claim C2 counterexample: in a two-file group whose first file only
widens the extent of chromosome `c` to [0, 1000], the single retained
contact of the second file (separation 50, own extent [100, 200]) is
weighted with the group-wide usable length 1001 — weight 1001/951 —
while the spec's file-scoped computation yields 101/51. -/
theorem claim2_counterexample :
    (processGroup false [⟨"a", [mkRec "c" 0 1000 0 1000]⟩,
        ⟨"b", [mkRec "c" 100 200 100 150]⟩]).weights_all = [1001 / 951] ∧
    fileScopedWeightsSpec [⟨"a", [mkRec "c" 0 1000 0 1000]⟩,
        ⟨"b", [mkRec "c" 100 200 100 150]⟩] = [101 / 51] ∧
    ((1001 / 951 : ℚ) = 101 / 51 → False) := by
  refine ⟨?_, ?_, by norm_num⟩ <;>
    norm_num [processGroup, processFile, processLine, afterFileChromoLoop, chromoStep,
      chromoPairs, chromoWeights, usableLen, stepLimits, stepContacts, anchorsOf, anchorPos,
      py2StrGtInt, sep32, toInt32, cisLo, cisHi, Dict.set, Dict.get, Dict.empty, initState,
      mkRec, fileScopedWeightsSpec]

/-- Claim C3 (code bug): `contacts` is initialised once per group (line
85) and never reset between files, and the per-chromosome loop of lines
140-160 runs over the *accumulated* contacts after every file; in a
two-file group with one cis contact per file (separation 200) the pooled
separation list therefore holds three entries — the first file's contact
is pooled again during the second file's pass — where the claim requires
exactly one entry per contact (two). -/
theorem claim3_double_count_eval :
    (processGroup false [⟨"a", [mkRec "c" 100 200 300 400]⟩,
        ⟨"b", [mkRec "c" 100 200 300 400]⟩]).seq_seps_all = [200, 200, 200] := by
  decide

/-- Claim C4 (code bug): with exactly one group holding exactly one file
(with at least one usable contact), `multi_set` is false and
`comb_y_data` is never created (the per-file block requires
`n_files > 1`), yet line 201 unconditionally evaluates
`comb_y_data.std(...)` — an `AttributeError` on `None` — so the run
crashes instead of producing the curve without an error band. -/
theorem claim4_single_file_crash_eval :
    groupOutcome false [15, 25] [⟨"a", [mkRec "c" 5 30 8 10]⟩] =
      .error .attrErrorNoneStd := by
  norm_num [groupOutcome, processGroup, processFile, processLine, afterFileChromoLoop,
    chromoStep, chromoPairs, chromoWeights, usableLen, stepLimits, stepContacts, anchorsOf,
    anchorPos, py2StrGtInt, sep32, toInt32, cisLo, cisHi, Dict.set, Dict.get, Dict.empty,
    initState, mkRec]

/-- Claim C5: every (separation, weight) pair the per-chromosome loop
produces satisfies `weight = L / (L - s)` for the tracked usable length
`L = p_end - p_start + 1`, and whenever `0 < s < L` the weight is at
least 1. -/
theorem claim5_weight_formula (cl : List (Int × Int)) (lim : Int × Int) (s : Int) (w : ℚ)
    (hmem : (s, w) ∈ (chromoPairs cl).zip (chromoWeights lim (chromoPairs cl)))
    (hs : 0 < (s : ℚ)) (hsL : (s : ℚ) < usableLen lim) :
    w = usableLen lim / (usableLen lim - (s : ℚ)) ∧ 1 ≤ w := by
  have hmem' : (s, w) ∈ (chromoPairs cl).zip ((chromoPairs cl).map
      (fun t : Int => usableLen lim / (usableLen lim - (t : ℚ)))) := by
    have h := hmem
    unfold chromoWeights at h
    exact h
  have hw : w = usableLen lim / (usableLen lim - (s : ℚ)) :=
    mem_zip_map (fun t : Int => usableLen lim / (usableLen lim - (t : ℚ))) _ (s, w) hmem'
  refine ⟨hw, ?_⟩
  rw [hw]
  have hpos : 0 < usableLen lim - (s : ℚ) := by linarith
  rw [one_le_div hpos]
  linarith

/-- Witness for C5 at a concrete contact: the pair (200, 150) under the
extent (100, 200) yields separation 50 with weight 101/51 ≥ 1. -/
theorem claim5_weight_formula_witness :
    (((50 : Int), (101 / 51 : ℚ)) ∈ (chromoPairs [(200, 150)]).zip
        (chromoWeights (100, 200) (chromoPairs [(200, 150)]))) ∧
    (0 : ℚ) < ((50 : Int) : ℚ) ∧ ((50 : Int) : ℚ) < usableLen (100, 200) ∧
    ((101 / 51 : ℚ) = usableLen (100, 200) / (usableLen (100, 200) - ((50 : Int) : ℚ)) ∧
      1 ≤ (101 / 51 : ℚ)) := by
  have hmem : ((50 : Int), (101 / 51 : ℚ)) ∈ (chromoPairs [(200, 150)]).zip
      (chromoWeights (100, 200) (chromoPairs [(200, 150)])) := by
    norm_num [chromoPairs, chromoWeights, usableLen, sep32, toInt32]
  exact ⟨hmem, by norm_num, by norm_num [usableLen],
    claim5_weight_formula [(200, 150)] (100, 200) 50 (101 / 51) hmem (by norm_num)
      (by norm_num [usableLen])⟩

/-- Claim C6 counterexample: a non-empty input whose only observation
(separation 50) lies below the first bin edge (100) has zero in-range
mass; `normed=True` divides by zero (numpy emits NaN, the rational model
yields 0) and the histogram does not integrate to 1. -/
theorem claim6_counterexample :
    ([((50 : ℚ), (1 : ℚ))] = [] → False) ∧
    histIntegral [100, 200] [((50 : ℚ), (1 : ℚ))] ≠ 1 := by
  constructor
  · intro h; cases h
  · norm_num [histIntegral, histNormed, binCounts, binCount, binWidths, histTotal, findBin,
      List.range_succ]

/-- Claim C6 (amended): for every input whose total in-range mass
`sum(count_i * width_i)` is nonzero — in particular any input with an
observation of positive weight inside the bin range — the normalised
histogram integrates to exactly 1, and dropping the zero bins (lines
192-195) leaves the integral unchanged. -/
theorem claim6_amended_density_norm (edges : List ℚ) (data : List (ℚ × ℚ))
    (hT : histTotal edges data ≠ 0) :
    histIntegral edges data = 1 ∧ keptIntegral edges data = 1 := by
  refine ⟨histIntegral_eq_one edges data hT, ?_⟩
  rw [keptIntegral_eq_histIntegral]
  exact histIntegral_eq_one edges data hT

/-- Witness for the amended C6 at a concrete input: one observation of
weight 2 at separation 150 inside the single bin [100, 200]. -/
theorem claim6_amended_density_norm_witness :
    histTotal [100, 200] [((150 : ℚ), (2 : ℚ))] ≠ 0 ∧
    (histIntegral [100, 200] [((150 : ℚ), (2 : ℚ))] = 1 ∧
      keptIntegral [100, 200] [((150 : ℚ), (2 : ℚ))] = 1) := by
  have hT : histTotal [100, 200] [((150 : ℚ), (2 : ℚ))] ≠ 0 := by
    norm_num [histTotal, binCounts, binCount, binWidths, findBin, List.range_succ]
  exact ⟨hT, claim6_amended_density_norm [100, 200] [((150 : ℚ), (2 : ℚ))] hT⟩

/-- Claim C10: the caller's label list is consumed destructively — one
`labels.pop(0)` per processed group while the list is non-empty — so
after a successful run over `k` groups the caller's list has lost its
first `k` elements (it equals `labels.drop k`; when fewer labels than
groups were supplied the list is exhausted and stays empty). -/
theorem claim10_labels_drop (edges : List ℚ) (groups : List (List NccFile))
    (labels : List String) (rs : List GroupResult) (ls : List String)
    (h : runGroups edges groups labels = .ok (rs, ls)) :
    ls = labels.drop groups.length :=
  labels_after_runGroupsAux _ edges groups labels rs ls h

/-- Witness for C10: two one-file groups and three labels; the run
succeeds and leaves the caller's list holding only the third label. -/
theorem claim10_labels_drop_witness :
    runGroups [15, 25] [[⟨"a", [mkRec "c" 5 30 8 10]⟩], [⟨"b", [mkRec "c" 5 30 8 10]⟩]]
        ["x", "y", "z"] =
      .ok ([⟨[1 / 10], none⟩, ⟨[1 / 10], none⟩], ["z"]) ∧
    (["z"] : List String) = ["x", "y", "z"].drop 2 := by
  have hrun : runGroups [15, 25] [[⟨"a", [mkRec "c" 5 30 8 10]⟩],
      [⟨"b", [mkRec "c" 5 30 8 10]⟩]] ["x", "y", "z"] =
      .ok ([⟨[1 / 10], none⟩, ⟨[1 / 10], none⟩], ["z"]) := by
    norm_num +decide [runGroups, runGroupsAux, groupOutcome, processGroup, processFile,
      processLine, afterFileChromoLoop, chromoStep, chromoPairs, chromoWeights, usableLen,
      stepLimits, stepContacts, anchorsOf, anchorPos, py2StrGtInt, sep32, toInt32, cisLo,
      cisHi, Dict.set, Dict.get, Dict.empty, initState, mkRec, combinedHist, combinedData,
      histNormed, binCounts, binCount, binWidths, histTotal, findBin, List.range_succ]
  exact ⟨hrun,
    claim10_labels_drop [15, 25] [[⟨"a", [mkRec "c" 5 30 8 10]⟩],
      [⟨"b", [mkRec "c" 5 30 8 10]⟩]] ["x", "y", "z"]
      [⟨[1 / 10], none⟩, ⟨[1 / 10], none⟩] ["z"] hrun⟩


/-! ## Invariant: separations entering the histograms are positive (C8) -/

theorem inv8_foldFiles (ms : Bool) (files : List NccFile)
    (hco : ∀ f ∈ files, ∀ r ∈ f.lines, coordOK r) :
    ∀ st : GroupState,
      (∀ chr pr, pr ∈ (st.contacts.get chr).getD [] → pairOK pr) →
      (∀ s ∈ st.seq_seps_all, 0 < s) →
      (∀ p l, st.seq_seps.get p = some l → ∀ s ∈ l, 0 < s) →
      ((∀ chr pr, pr ∈ ((files.foldl (processFile ms) st).contacts.get chr).getD [] →
          pairOK pr) ∧
       (∀ s ∈ (files.foldl (processFile ms) st).seq_seps_all, 0 < s) ∧
       (∀ p l, (files.foldl (processFile ms) st).seq_seps.get p = some l →
          ∀ s ∈ l, 0 < s)) := by
  induction files with
  | nil => intro st h1 h2 h3; exact ⟨h1, h2, h3⟩
  | cons f fs ih =>
    intro st h1 h2 h3
    rw [List.foldl_cons]
    have hcof : ∀ r ∈ f.lines, coordOK r := hco f (by simp)
    have hcos : ∀ g ∈ fs, ∀ r ∈ g.lines, coordOK r := fun g hg => hco g (by simp [hg])
    -- the contacts of the mid-file state stay pairOK
    have hmidpairs : ∀ chr pr, pr ∈ ((midState st f).contacts.get chr).getD [] →
        pairOK pr := by
      intro chr pr hpr
      have : pr ∈ (st.contacts.get chr).getD [] ∨
          ∃ r, r ∈ f.lines ∧ r.chr_a = r.chr_b ∧ pr = anchorsOf r :=
        mem_foldContacts f.lines st.contacts chr pr hpr
      rcases this with h | ⟨r, hrL, _, hpr'⟩
      · exact h1 chr pr h
      · rw [hpr']
        exact anchorsOf_pairOK r (hcof r hrL)
    have hpieces : ∀ chr, ∀ s ∈ pieceS (midState st f) chr, 0 < s := by
      intro chr
      exact chromoPairs_pos _ (fun pr hpr => hmidpairs chr pr hpr)
    have hflat : ∀ s ∈ (midState st f).contacts.keys.flatMap (pieceS (midState st f)), 0 < s := by
      intro s hs
      obtain ⟨chr, hchr, hmem⟩ := List.mem_flatMap.mp hs
      exact hpieces chr s hmem
    refine ih hcos (processFile ms st f) ?_ ?_ ?_
    · intro chr pr hpr
      rw [contacts_processFile] at hpr
      rcases mem_foldContacts f.lines st.contacts chr pr hpr with h | ⟨r, hrL, _, hpr'⟩
      · exact h1 chr pr h
      · rw [hpr']
        exact anchorsOf_pairOK r (hcof r hrL)
    · intro s hs
      have hall : (processFile ms st f).seq_seps_all =
          st.seq_seps_all ++ (midState st f).contacts.keys.flatMap (pieceS (midState st f)) := by
        cases ms
        · rw [processFile_false_spec]
        · rw [processFile_true_spec]
      rw [hall] at hs
      rcases List.mem_append.mp hs with h | h
      · exact h2 s h
      · exact hflat s h
    · intro p l hl s hs
      cases ms
      · rw [processFile_false_spec] at hl
        simp only at hl
        by_cases hp : p = f.path
        · rw [hp, Dict.get_set_self] at hl
          injection hl with hl'
          subst hl'
          exact hflat s hs
        · rw [Dict.get_set_ne _ _ hp] at hl
          exact h3 p l hl s hs
      · rw [processFile_true_spec] at hl
        simp only [midState] at hl
        by_cases hp : p = f.path
        · rw [hp, Dict.get_set_self] at hl
          injection hl with hl'
          subst hl'
          cases hs
        · rw [Dict.get_set_ne _ _ hp] at hl
          exact h3 p l hl s hs

/-- Claim C8: every separation that can enter any histogram input — the
pooled `seq_seps_all` list and each per-file `seq_seps` entry — is
strictly positive, for inputs whose fragment coordinates are
non-negative int32 values (the spec's §6 input domain): zero
separations are dropped by `seps.nonzero()` before weighting, so a
contact whose anchors coincide never reaches any histogram. -/
theorem claim8_positive_separations (ms : Bool) (files : List NccFile)
    (h : ∀ f ∈ files, ∀ r ∈ f.lines, coordOK r) :
    (∀ s ∈ (processGroup ms files).seq_seps_all, 0 < s) ∧
    (∀ (p : String) (l : List Int),
      (processGroup ms files).seq_seps.get p = some l → ∀ s ∈ l, 0 < s) := by
  have h0 := inv8_foldFiles ms files h initState
    (by intro chr pr hpr; simp [initState, Dict.empty, Dict.get] at hpr)
    (by intro s hs; simp [initState] at hs)
    (by intro p l hl; simp [initState, Dict.empty, Dict.get] at hl)
  exact ⟨h0.2.1, h0.2.2⟩

/-- Witness for C8 on a concrete one-file group with one cis contact of
separation 20. -/
theorem claim8_positive_separations_witness :
    (∀ f ∈ [(⟨"a", [mkRec "c" 5 30 8 10]⟩ : NccFile)], ∀ r ∈ f.lines, coordOK r) ∧
    ((∀ s ∈ (processGroup false [⟨"a", [mkRec "c" 5 30 8 10]⟩]).seq_seps_all, 0 < s) ∧
     (∀ (p : String) (l : List Int),
       (processGroup false [⟨"a", [mkRec "c" 5 30 8 10]⟩]).seq_seps.get p = some l →
          ∀ s ∈ l, 0 < s)) :=
  ⟨by decide, claim8_positive_separations false [⟨"a", [mkRec "c" 5 30 8 10]⟩] (by decide)⟩

/-! ## Invariant: a group with no usable contact dies at the empty max (C9) -/

theorem chromoPairs_eq_nil (cl : List (Int × Int)) (h : ∀ pr ∈ cl, sep32 pr.1 pr.2 = 0) :
    chromoPairs cl = [] := by
  unfold chromoPairs
  rw [List.filter_eq_nil_iff]
  intro s hs
  obtain ⟨pr, hpr, hsep⟩ := List.mem_map.mp hs
  simp [← hsep, h pr hpr]

theorem inv9_foldFiles (ms : Bool) (files : List NccFile)
    (hz : ∀ f ∈ files, ∀ r ∈ f.lines, r.chr_a = r.chr_b →
        sep32 (anchorsOf r).1 (anchorsOf r).2 = 0) :
    ∀ st : GroupState,
      (∀ chr pr, pr ∈ (st.contacts.get chr).getD [] → sep32 pr.1 pr.2 = 0) →
      st.seq_seps_all = [] →
      ((∀ chr pr, pr ∈ ((files.foldl (processFile ms) st).contacts.get chr).getD [] →
          sep32 pr.1 pr.2 = 0) ∧
       (files.foldl (processFile ms) st).seq_seps_all = []) := by
  induction files with
  | nil => intro st h1 h2; exact ⟨h1, h2⟩
  | cons f fs ih =>
    intro st h1 h2
    rw [List.foldl_cons]
    have hzf : ∀ r ∈ f.lines, r.chr_a = r.chr_b →
        sep32 (anchorsOf r).1 (anchorsOf r).2 = 0 := hz f (by simp)
    have hzs : ∀ g ∈ fs, ∀ r ∈ g.lines, r.chr_a = r.chr_b →
        sep32 (anchorsOf r).1 (anchorsOf r).2 = 0 := fun g hg => hz g (by simp [hg])
    have hnewpairs : ∀ chr pr,
        pr ∈ ((f.lines.foldl stepContacts st.contacts).get chr).getD [] →
        sep32 pr.1 pr.2 = 0 := by
      intro chr pr hpr
      rcases mem_foldContacts f.lines st.contacts chr pr hpr with h | ⟨r, hrL, hcis, hpr'⟩
      · exact h1 chr pr h
      · rw [hpr']
        exact hzf r hrL hcis
    have hmidpairs : ∀ chr pr, pr ∈ ((midState st f).contacts.get chr).getD [] →
        sep32 pr.1 pr.2 = 0 := hnewpairs
    have hflat : (midState st f).contacts.keys.flatMap (pieceS (midState st f)) = [] := by
      apply flatMap_eq_nil_of
      intro chr _
      exact chromoPairs_eq_nil _ (fun pr hpr => hmidpairs chr pr hpr)
    refine ih hzs (processFile ms st f) ?_ ?_
    · intro chr pr hpr
      rw [contacts_processFile] at hpr
      exact hnewpairs chr pr hpr
    · have hall : (processFile ms st f).seq_seps_all =
          st.seq_seps_all ++ (midState st f).contacts.keys.flatMap (pieceS (midState st f)) := by
        cases ms
        · rw [processFile_false_spec]
        · rw [processFile_true_spec]
      rw [hall, h2, hflat]
      rfl

/-- Claim C9 (amended): only when the *whole group* yields zero usable
cis contacts — every cis record of every file of the group has
coinciding int32 anchors, in particular when the group has no cis record
at all — does the computation fail, with the uncaught numpy `ValueError`
of `seq_seps_all.max()` on an empty array at line 165; it never returns
a zero-filled or empty curve in that case.  (An individual empty file
inside a non-empty group raises nothing; see the counterexample.) -/
theorem claim9_amended_empty_group_error (ms : Bool) (edges : List ℚ) (files : List NccFile)
    (h : ∀ f ∈ files, ∀ r ∈ f.lines, r.chr_a = r.chr_b →
        sep32 (anchorsOf r).1 (anchorsOf r).2 = 0) :
    groupOutcome ms edges files = .error .valueErrorEmptyMax := by
  have hempty : (processGroup ms files).seq_seps_all = [] := by
    refine (inv9_foldFiles ms files h initState ?_ rfl).2
    intro chr pr hpr
    simp [initState, Dict.empty, Dict.get] at hpr
  simp [groupOutcome, hempty]

/-- Witness for the amended C9: a single file whose only cis record has
equal anchors (fragment ends 30 and 30), so the group has no usable
contact and the run dies at line 165. -/
theorem claim9_amended_empty_group_error_witness :
    (∀ f ∈ [(⟨"a", [mkRec "c" 5 30 8 30]⟩ : NccFile)], ∀ r ∈ f.lines,
        r.chr_a = r.chr_b → sep32 (anchorsOf r).1 (anchorsOf r).2 = 0) ∧
    groupOutcome false [15, 25] [⟨"a", [mkRec "c" 5 30 8 30]⟩] = .error .valueErrorEmptyMax :=
  ⟨by decide,
    claim9_amended_empty_group_error false [15, 25] [⟨"a", [mkRec "c" 5 30 8 30]⟩] (by decide)⟩

/-- Claim C9 counterexample: the first file of this two-file group
yields zero usable cis contacts (it is empty), yet the group run raises
no error at all — it returns the curve built from the second file alone,
contradicting the claim that an empty *file* is reported as a
data-availability error. -/
theorem claim9_counterexample :
    (processGroup false [(⟨"e", []⟩ : NccFile)]).seq_seps_all = [] ∧
    groupOutcome false [15, 25] [⟨"e", []⟩, ⟨"g", [mkRec "c" 5 30 8 10]⟩] =
      .ok ⟨[1 / 10], some [1 / 200]⟩ := by
  constructor
  · decide
  · norm_num +decide [groupOutcome, processGroup, processFile, processLine,
      afterFileChromoLoop, chromoStep, chromoPairs, chromoWeights, usableLen, stepLimits,
      stepContacts, anchorsOf, anchorPos, py2StrGtInt, sep32, toInt32, cisLo, cisHi,
      Dict.set, Dict.get, Dict.empty, initState, mkRec, combinedHist, combinedData,
      histNormed, binCounts, binCount, binWidths, histTotal, binVariances, perFileRows,
      perFileData, sampleVar, findBin, List.range_succ]

/-- Claim C7: in a single-group run over `n ≥ 2` files with identical
contents (and pairwise distinct paths), every per-bin Bessel-corrected
sample variance across the per-file histograms is exactly 0 — so the
standard deviation the source takes at line 201 is exactly 0 — and for
any per-bin error magnitude `r ≥ 0` with `r² = variance`, both error
band endpoints `hist - r` and `hist + r` coincide with the combined
curve in every bin.  The hypothesis `hT` (nonzero in-range mass for a
single copy of the stream) pins the regime in which the float
computation is finite, so the exact rational model and `np.histogram`
agree; each file's pooled data is then a positive number of copies of
the same observations, whose density-normalised histograms coincide. -/
theorem claim7_identical_files_zero_dispersion (edges : List ℚ) (paths : List String)
    (L : List NccRecord) (hn : 2 ≤ paths.length) (hnd : paths.Nodup)
    (hT : histTotal edges (singleData L) ≠ 0) :
    (∀ x ∈ binVariances edges
        (processGroup false (paths.map (fun q => (⟨q, L⟩ : NccFile)))) paths.length, x = 0) ∧
    (∀ (j : Nat) (r : ℚ), 0 ≤ r →
      r ^ 2 = (binVariances edges
        (processGroup false (paths.map (fun q => (⟨q, L⟩ : NccFile)))) paths.length).getD j 0 →
      ((combinedHist edges
          (processGroup false (paths.map (fun q => (⟨q, L⟩ : NccFile))))).getD j 0 - r =
        (combinedHist edges
          (processGroup false (paths.map (fun q => (⟨q, L⟩ : NccFile))))).getD j 0 ∧
       (combinedHist edges
          (processGroup false (paths.map (fun q => (⟨q, L⟩ : NccFile))))).getD j 0 + r =
        (combinedHist edges
          (processGroup false (paths.map (fun q => (⟨q, L⟩ : NccFile))))).getD j 0)) := by
  have hne : paths ≠ [] := by
    intro h
    rw [h] at hn
    simp at hn
  obtain ⟨h1, h2, h3, h4, h5, h6⟩ := c7Inv_run L paths hne hnd
  have hrows : ∀ row ∈ perFileRows edges
      (processGroup false (paths.map (fun q => (⟨q, L⟩ : NccFile)))) paths.length,
      row = histNormed edges (singleData L) := by
    intro row hrow
    simp only [perFileRows] at hrow
    rw [h4, List.length_map, Nat.sub_self] at hrow
    simp only [List.replicate_zero, List.append_nil] at hrow
    obtain ⟨q, hq, hrow'⟩ := List.mem_map.mp hrow
    obtain ⟨j, hj⟩ := exists_withIdx_of_mem hq 0
    have hdat := h5 (j, q) hj
    have hdata : perFileData (processGroup false (paths.map (fun q => (⟨q, L⟩ : NccFile)))) q =
        ((perSeps L (j + 1)).map (fun s : Int => (s : ℚ))).zip (perW L (j + 1)) := by
      unfold perFileData
      rw [hdat.1, hdat.2]
      rfl
    rw [← hrow', hdata, histNormed_perFileData edges L (j + 1) (Nat.succ_ne_zero j)]
  have hvar : ∀ x ∈ binVariances edges
      (processGroup false (paths.map (fun q => (⟨q, L⟩ : NccFile)))) paths.length, x = 0 := by
    intro x hx
    simp only [binVariances] at hx
    obtain ⟨j, _, hxj⟩ := List.mem_map.mp hx
    rw [← hxj]
    apply sampleVar_const _ ((histNormed edges (singleData L)).getD j 0)
    intro y hy
    obtain ⟨row, hrow, hy'⟩ := List.mem_map.mp hy
    rw [← hy', hrows row hrow]
  refine ⟨hvar, ?_⟩
  intro j r hr0 hrsq
  rw [getD_zero_of_all hvar j] at hrsq
  have hr : r = 0 := by
    have h2 : r ^ 2 = 0 := hrsq
    exact pow_eq_zero_iff two_ne_zero |>.mp h2
  rw [hr]
  exact ⟨sub_zero _, add_zero _⟩

/-- Witness for C7: two identically loaded files (paths `a`, `b`) with
one cis contact of separation 20 and weight 13/3, bins [15, 25]. -/
theorem claim7_identical_files_zero_dispersion_witness :
    (2 ≤ (["a", "b"] : List String).length ∧ (["a", "b"] : List String).Nodup ∧
      histTotal [15, 25] (singleData [mkRec "c" 5 30 8 10]) ≠ 0) ∧
    ((∀ x ∈ binVariances [15, 25]
        (processGroup false ((["a", "b"] : List String).map
          (fun q => (⟨q, [mkRec "c" 5 30 8 10]⟩ : NccFile)))) (["a", "b"] : List String).length,
        x = 0) ∧
     (∀ (j : Nat) (r : ℚ), 0 ≤ r →
      r ^ 2 = (binVariances [15, 25]
        (processGroup false ((["a", "b"] : List String).map
          (fun q => (⟨q, [mkRec "c" 5 30 8 10]⟩ : NccFile)))) (["a", "b"] : List String).length).getD
          j 0 →
      ((combinedHist [15, 25]
          (processGroup false ((["a", "b"] : List String).map
            (fun q => (⟨q, [mkRec "c" 5 30 8 10]⟩ : NccFile))))).getD j 0 - r =
        (combinedHist [15, 25]
          (processGroup false ((["a", "b"] : List String).map
            (fun q => (⟨q, [mkRec "c" 5 30 8 10]⟩ : NccFile))))).getD j 0 ∧
       (combinedHist [15, 25]
          (processGroup false ((["a", "b"] : List String).map
            (fun q => (⟨q, [mkRec "c" 5 30 8 10]⟩ : NccFile))))).getD j 0 + r =
        (combinedHist [15, 25]
          (processGroup false ((["a", "b"] : List String).map
            (fun q => (⟨q, [mkRec "c" 5 30 8 10]⟩ : NccFile))))).getD j 0))) := by
  have hT : histTotal [15, 25] (singleData [mkRec "c" 5 30 8 10]) ≠ 0 := by
    norm_num +decide [singleData, perSeps, perW, contactsOf, limitsOf, chromoBase,
      chromoPairs, chromoWeights, usableLen, stepLimits, stepContacts, anchorsOf, anchorPos,
      py2StrGtInt, sep32, toInt32, cisLo, cisHi, Dict.set, Dict.get, Dict.empty, mkRec,
      repList, histTotal, binCounts, binCount, binWidths, findBin, List.range_succ]
  exact ⟨⟨by decide, by decide, hT⟩,
    claim7_identical_files_zero_dispersion [15, 25] ["a", "b"] [mkRec "c" 5 30 8 10]
      (by decide) (by decide) hT⟩

end NucProb
